import Mathlib

/-!
Verification of the level-set mesher in `src/sdf/include/sdf.h` (Manifold).

The development shallowly embeds the source: bit twiddling is modelled on
`Nat` (no intermediate of the C code overflows 64 bits, so plain `Nat`
arithmetic is exact), `glm::ivec` components are `Int`, `float` scalars are
`ℚ` with `Option ℚ` where a NaN can occur (`none` models NaN, and every
comparison `none > 0` is `false` exactly as IEEE dictates), and the
lock-free hash table plus the two passes are modelled as sequential state
transformers (fuelled loops return `Option`, `none` marking divergence of
the corresponding C loop).
-/

namespace Manifold

/-- Embeds `SpreadBits3` (sdf.h line 100). All intermediates stay below
2 ^ 64, so `Nat` models `Uint64` exactly. -/
def SpreadBits3 (v : Nat) : Nat :=
  let v1 := v &&& 0x1fffff
  let v2 := (v1 ||| (v1 <<< 32)) &&& 0x1f00000000ffff
  let v3 := (v2 ||| (v2 <<< 16)) &&& 0x1f0000ff0000ff
  let v4 := (v3 ||| (v3 <<< 8)) &&& 0x100f00f00f00f00f
  let v5 := (v4 ||| (v4 <<< 4)) &&& 0x10c30c30c30c30c3
  let v6 := (v5 ||| (v5 <<< 2)) &&& 0x1249249249249249
  v6

/-- Embeds `SqueezeBits3` (sdf.h line 110). -/
def SqueezeBits3 (v : Nat) : Nat :=
  let v1 := v &&& 0x1249249249249249
  let v2 := (v1 ^^^ (v1 >>> 2)) &&& 0x10c30c30c30c30c3
  let v3 := (v2 ^^^ (v2 >>> 4)) &&& 0x100f00f00f00f00f
  let v4 := (v3 ^^^ (v3 >>> 8)) &&& 0x1f0000ff0000ff
  let v5 := (v4 ^^^ (v4 >>> 16)) &&& 0x1f00000000ffff
  let v6 := (v5 ^^^ (v5 >>> 32)) &&& 0x1fffff
  v6

/-- Models `glm::ivec4` as used for grid indices (x, y, z, w), with the
32-bit `int` components widened to `Int`; every value the source stores in
such a vector fits in 32 bits, so the widening is exact. -/
structure GridIndex where
  x : Int
  y : Int
  z : Int
  w : Int
deriving DecidableEq, Repr

/-- C++ conversion of a (possibly negative) `int` to `unsigned long long`:
wraps modulo 2 ^ 64. -/
def toUint64 (t : Int) : Nat := (t % (2 ^ 64 : Int)).toNat

/-- Embeds `MortonCode` (sdf.h line 123): w in bit 0, x, y, z interleaved
from bit 1 upward. -/
def MortonCode (index : GridIndex) : Nat :=
  toUint64 index.w ||| (SpreadBits3 (toUint64 index.x) <<< 1) |||
    (SpreadBits3 (toUint64 index.y) <<< 2) ||| (SpreadBits3 (toUint64 index.z) <<< 3)

/-- Embeds `DecodeMorton` (sdf.h line 128). The squeezed channels are below
2 ^ 21 and therefore survive the C++ narrowing to `int` unchanged. -/
def DecodeMorton (code : Nat) : GridIndex where
  x := (SqueezeBits3 (code >>> 1) : Nat)
  y := (SqueezeBits3 (code >>> 2) : Nat)
  z := (SqueezeBits3 (code >>> 3) : Nat)
  w := (code &&& 1 : Nat)

/-- Pure-`Nat` form of the Morton packing, used to factor the channel
extraction lemmas. -/
def mortonNat (x y z w : Nat) : Nat :=
  w ||| (SpreadBits3 x <<< 1) ||| (SpreadBits3 y <<< 2) ||| (SpreadBits3 z <<< 3)

/-- Models `glm::vec3` with exact rationals in place of `float`. -/
structure Vec3 where
  x : ℚ
  y : ℚ
  z : ℚ
deriving DecidableEq, Repr

instance : Add Vec3 := ⟨fun a b => ⟨a.x + b.x, a.y + b.y, a.z + b.z⟩⟩

instance : Sub Vec3 := ⟨fun a b => ⟨a.x - b.x, a.y - b.y, a.z - b.z⟩⟩

instance : Mul Vec3 := ⟨fun a b => ⟨a.x * b.x, a.y * b.y, a.z * b.z⟩⟩

instance : SMul ℚ Vec3 := ⟨fun q a => ⟨q * a.x, q * a.y, q * a.z⟩⟩

instance : HDiv Vec3 ℚ Vec3 := ⟨fun a q => ⟨a.x / q, a.y / q, a.z / q⟩⟩

/-- glm vec + scalar broadcast. -/
def Vec3.addScalar (a : Vec3) (q : ℚ) : Vec3 := ⟨a.x + q, a.y + q, a.z + q⟩

/-- Models `glm::ivec3`. -/
structure IVec3 where
  x : Int
  y : Int
  z : Int
deriving DecidableEq, Repr

/-- glm::vec3 of an ivec4 takes the first three components. -/
def GridIndex.toVec3 (g : GridIndex) : Vec3 := ⟨(g.x : ℚ), (g.y : ℚ), (g.z : ℚ)⟩

/-- The `kOpen` sentinel, `std::numeric_limits of Uint64::max()`. -/
def kOpen : Nat := 2 ^ 64 - 1

/-- Embeds `GridVert` (sdf.h line 137). `distance` is a `float`, NaN when
uninitialised, so it is modelled as `Option ℚ` with `none` for NaN; the
seven-entry `edgeVerts` array is a seven-element list. -/
structure GridVert where
  key : Nat := kOpen
  distance : Option ℚ := none
  edgeVerts : List Int := [-1, -1, -1, -1, -1, -1, -1]
deriving DecidableEq, Repr

instance : Inhabited GridVert := ⟨{}⟩

/-- Models the C++ comparison `d > 0` on a possibly-NaN `float`: every
comparison against NaN is false. -/
def floatPos (d : Option ℚ) : Bool :=
  match d with
  | some q => decide (0 < q)
  | none => false

/-- `GridVert::Inside` (sdf.h line 142). -/
def GridVert.Inside (g : GridVert) : Int := if floatPos g.distance then 1 else -1

/-- `GridVert::NeighborInside` (sdf.h line 144). -/
def GridVert.NeighborInside (g : GridVert) (i : Nat) : Int :=
  g.Inside * (if g.edgeVerts.getD i (-1) < 0 then 1 else -1)

/-- Device view of the hash table: probe stride, the slot array, and the
occupancy counter (`used_[0]`). -/
structure HashTableD where
  step : Nat
  table : List GridVert
  used : Nat
deriving DecidableEq, Repr

def HashTableD.Size (t : HashTableD) : Nat := t.table.length

def HashTableD.Full (t : HashTableD) : Bool := decide (t.used * 2 > t.Size)

/-- Reads slot `idx`; the source never indexes out of bounds, the default
is a benign totalisation. -/
def HashTableD.slot (t : HashTableD) (idx : Nat) : GridVert := t.table.getD idx {}

/-- One execution of the CAS probe loop of `HashTableD::Insert` (sdf.h
line 158), sequentialised. The fuel counts remaining probes; since the
probe sequence is periodic with period at most `Size`, fuel `Size` is
exhausted exactly when the C loop would run forever. -/
def insertLoop (vert : GridVert) : HashTableD → Nat → Nat → Option HashTableD
  | _, _, 0 => none
  | t, idx, fuel+1 =>
    let found := (t.slot idx).key
    if found = kOpen then
      some { t with table := t.table.set idx vert, used := t.used + 1 }
    else if found = vert.key then some t
    else insertLoop vert t ((idx + t.step) &&& (t.Size - 1)) fuel

/-- `HashTableD::Insert` (sdf.h line 158). `none` models divergence. -/
def HashTableD.Insert (t : HashTableD) (vert : GridVert) : Option HashTableD :=
  insertLoop vert t (vert.key &&& (t.Size - 1)) t.Size

/-- Probe loop of `HashTableD::operator[]` (sdf.h line 173). -/
def lookupLoop (t : HashTableD) (key : Nat) : Nat → Nat → Option GridVert
  | _, 0 => none
  | idx, fuel+1 =>
    let found := t.slot idx
    if found.key = key ∨ found.key = kOpen then some found
    else lookupLoop t key ((idx + t.step) &&& (t.Size - 1)) fuel

/-- `HashTableD::operator[]` (sdf.h line 173). `none` models divergence. -/
def HashTableD.get (t : HashTableD) (key : Nat) : Option GridVert :=
  lookupLoop t key (key &&& (t.Size - 1)) t.Size

/-- `HashTableD::At` (sdf.h line 182). -/
def HashTableD.At (t : HashTableD) (idx : Nat) : GridVert := t.slot idx

/-- Index visited by the j-th probe starting from `start`: the loop steps
`idx := (idx + step) mod Size` (the source writes the mod as a mask against
`Size - 1`, with `Size` a power of two). -/
def probe (t : HashTableD) (start j : Nat) : Nat :=
  (start + j * t.step) % t.Size

/-- The stop condition of the lookup probe loop. -/
def stopAt (t : HashTableD) (key idx : Nat) : Prop :=
  (t.slot idx).key = key ∨ (t.slot idx).key = kOpen

instance (t : HashTableD) (key idx : Nat) : Decidable (stopAt t key idx) := by
  unfold stopAt; infer_instance

/-- The stop condition of the insert probe loop: the CAS either wins an
open slot or observes the same key. -/
def stopIns (t : HashTableD) (vkey idx : Nat) : Prop :=
  (t.slot idx).key = kOpen ∨ (t.slot idx).key = vkey

instance (t : HashTableD) (vkey idx : Nat) : Decidable (stopIns t vkey idx) := by
  unfold stopIns; infer_instance

/-- Well-formedness, the invariant every sequence of `Insert` calls
maintains: the used counter counts occupied slots, open slots hold the
default record, and every occupied slot is reachable from its key's home
position along a probe path of occupied, differently-keyed slots. -/
structure WF (t : HashTableD) : Prop where
  used_eq : t.used = t.table.countP (fun g => decide (g.key ≠ kOpen))
  open_default : ∀ g ∈ t.table, g.key = kOpen → g = {}
  find : ∀ q, q < t.Size → (t.slot q).key ≠ kOpen →
    ∃ j, j < t.Size ∧ probe t ((t.slot q).key % t.Size) j = q ∧
      ∀ j', j' < j →
        (t.slot (probe t ((t.slot q).key % t.Size) j')).key ≠ kOpen ∧
        (t.slot (probe t ((t.slot q).key % t.Size) j')).key ≠ (t.slot q).key

/-- Updated table record after a winning CAS. -/
def setSlot (t : HashTableD) (q : Nat) (v : GridVert) : HashTableD :=
  { t with table := t.table.set q v, used := t.used + 1 }

/-- Tables whose occupied slots were produced only by `Insert`: built from
a freshly allocated all-open table by successful inserts of records with
non-sentinel keys. -/
inductive Built : HashTableD → Prop
  | empty (step n : Nat) : Built ⟨step, List.replicate n {}, 0⟩
  | insert {t t' : HashTableD} (vert : GridVert) (hkey : vert.key ≠ kOpen)
      (hb : Built t) (hins : t.Insert vert = some t') : Built t'

instance : Add GridIndex :=
  ⟨fun a b => ⟨a.x + b.x, a.y + b.y, a.z + b.z, a.w + b.w⟩⟩

/-- `Neighbors` table (sdf.h line 89): the seven owned edge directions. -/
def Neighbors (i : Nat) : GridIndex :=
  [(⟨0, 0, 0, 1⟩ : GridIndex), ⟨1, 0, 0, 0⟩, ⟨0, 1, 0, 0⟩, ⟨0, 0, 1, 0⟩,
    ⟨-1, 0, 0, 1⟩, ⟨0, -1, 0, 1⟩, ⟨0, 0, -1, 1⟩].getD i ⟨0, 0, 0, 0⟩

/-- Captured fields of the `ComputeVerts` functor (sdf.h line 212), minus
the output pointers, which are modelled as explicit state. -/
structure ComputeVerts where
  sdf : Vec3 → ℚ
  origin : Vec3
  gridSize : IVec3
  spacing : Vec3
  level : ℚ

/-- `ComputeVerts::Position` (sdf.h line 222). -/
def ComputeVerts.Position (c : ComputeVerts) (gridIndex : GridIndex) : Vec3 :=
  c.origin +
    c.spacing * ((gridIndex.toVec3).addScalar (if gridIndex.w = 1 then 0 else -(1/2)))

/-- `ComputeVerts::BoundedSDF` (sdf.h line 227). -/
def ComputeVerts.BoundedSDF (c : ComputeVerts) (gridIndex : GridIndex) : ℚ :=
  let d := c.sdf (c.Position gridIndex) - c.level
  let onLowerBound := gridIndex.x ≤ 0 ∨ gridIndex.y ≤ 0 ∨ gridIndex.z ≤ 0
  let onUpperBound := gridIndex.x ≥ c.gridSize.x ∨ gridIndex.y ≥ c.gridSize.y ∨
    gridIndex.z ≥ c.gridSize.z
  let onHalfBound := gridIndex.w = 1 ∧ (gridIndex.x ≥ c.gridSize.x - 1 ∨
    gridIndex.y ≥ c.gridSize.y - 1 ∨ gridIndex.z ≥ c.gridSize.z - 1)
  if onLowerBound ∨ onUpperBound ∨ onHalfBound then min d 0 else d

/-- Neighbor grid index for owned edge `i`, after the w-normalisation of
sdf.h lines 257-261 (`w == 2` becomes `xyz + 1, w = 0`). -/
def neighborIndexOf (gridIndex : GridIndex) (i : Nat) : GridIndex :=
  let n0 := gridIndex + Neighbors i
  if n0.w = 2 then ⟨n0.x + 1, n0.y + 1, n0.z + 1, 0⟩ else n0

/-- Loop body for one owned edge of the vertex pass (sdf.h lines 256-271).
The accumulator carries the `edgeVerts` array under construction, the
`keep` flag, the shared vertex counter, and the list of writes into the
vertex-position buffer. -/
def processEdge (c : ComputeVerts) (gridIndex : GridIndex) (position : Vec3)
    (d : ℚ) (acc : List Int × Bool × Nat × List (Nat × Vec3)) (i : Nat) :
    List Int × Bool × Nat × List (Nat × Vec3) :=
  match acc with
  | (edgeVerts, keep, vertIndex, writes) =>
    let neighborIndex := neighborIndexOf gridIndex i
    let val := c.BoundedSDF neighborIndex
    if decide (0 < val) = decide (0 < d) then (edgeVerts, keep, vertIndex, writes)
    else
      (edgeVerts.set i (vertIndex : Int), true, vertIndex + 1,
        writes ++ [(vertIndex,
          (val • position - d • c.Position neighborIndex) / (val - d))])

/-- The mutable state a vertex-pass invocation touches: the shared vertex
counter, the writes into the vertex buffer, and the hash table. -/
structure VertexState where
  vertIndex : Nat
  vertWrites : List (Nat × Vec3)
  gridVerts : HashTableD
deriving DecidableEq

/-- `ComputeVerts::operator()` (sdf.h line 240), sequentialised. `none`
models divergence of the insert loop. -/
def ComputeVerts.step (c : ComputeVerts) (st : VertexState) (mortonCode : Nat) :
    Option VertexState :=
  if st.gridVerts.Full then some st
  else
    let gridIndex := DecodeMorton mortonCode
    if gridIndex.x > c.gridSize.x ∨ gridIndex.y > c.gridSize.y ∨
        gridIndex.z > c.gridSize.z then some st
    else
      let position := c.Position gridIndex
      let d := c.BoundedSDF gridIndex
      let r := (List.range 7).foldl (processEdge c gridIndex position d)
        ([-1, -1, -1, -1, -1, -1, -1], false, st.vertIndex, st.vertWrites)
      if r.2.1 then
        match st.gridVerts.Insert ⟨mortonCode, some d, r.1⟩ with
        | some t2 => some ⟨r.2.2.1, r.2.2.2, t2⟩
        | none => none
      else some ⟨r.2.2.1, r.2.2.2, st.gridVerts⟩

/-- A Full table (used times 2 exceeds capacity 4) that still has an open
slot; it is reachable by three inserts from the empty table. -/
def fullTable : HashTableD :=
  ⟨127,
   [⟨0, some 1, [-1, -1, -1, -1, -1, -1, -1]⟩,
    ⟨1, some 1, [-1, -1, -1, -1, -1, -1, -1]⟩,
    ⟨2, some 1, [-1, -1, -1, -1, -1, -1, -1]⟩, {}], 3⟩

/-- Modelled from the spec: the claim's sign convention, under which an
exact zero counts as positive. -/
def claimSign (q : ℚ) : Bool := decide (0 ≤ q)

/-- The vertex pass run sequentially over a list of morton codes. -/
def runVertexPass (c : ComputeVerts) : VertexState → List Nat → Option VertexState
  | st, [] => some st
  | st, code :: rest =>
    match c.step st code with
    | some st' => runVertexPass c st' rest
    | none => none

/-- Models `manifold::Box`. -/
structure Box where
  min : Vec3
  max : Vec3

/-- `Box::Size`. -/
def Box.Size (b : Box) : Vec3 := b.max - b.min

/-- C++ conversion `float` to `int`: truncation toward zero. -/
def truncQ (q : ℚ) : Int := q.num.tdiv q.den

/-- `glm::ivec3` construction from a `glm::vec3` truncates each component
toward zero. -/
def ivec3OfVec3 (v : Vec3) : IVec3 := ⟨truncQ v.x, truncQ v.y, truncQ v.z⟩

/-- The grid-extent computation of `LevelSet` (sdf.h line 396):
`glm::ivec3 gridSize(dim / edgeLength)`. -/
def LevelSet_gridSize (bounds : Box) (edgeLength : ℚ) : IVec3 :=
  ivec3OfVec3 (bounds.Size / edgeLength)

/-- `Next3` (sdf.h line 39). -/
def Next3 (i : Nat) : Nat := [1, 2, 0].getD i 0

/-- `Prev3` (sdf.h line 44). -/
def Prev3 (i : Nat) : Nat := [2, 0, 1].getD i 0

/-- `TetTri0` (sdf.h line 49): first triangle of each of the 16 cases. -/
def TetTri0 (i : Nat) : IVec3 :=
  [(⟨-1, -1, -1⟩ : IVec3), ⟨0, 3, 4⟩, ⟨0, 1, 5⟩, ⟨1, 5, 3⟩, ⟨1, 4, 2⟩, ⟨1, 0, 3⟩,
   ⟨2, 5, 0⟩, ⟨5, 3, 2⟩, ⟨2, 3, 5⟩, ⟨0, 5, 2⟩, ⟨3, 0, 1⟩, ⟨2, 4, 1⟩, ⟨3, 5, 1⟩,
   ⟨5, 1, 0⟩, ⟨4, 3, 0⟩, ⟨-1, -1, -1⟩].getD i ⟨-1, -1, -1⟩

/-- `TetTri1` (sdf.h line 69): second triangle of each of the 16 cases. -/
def TetTri1 (i : Nat) : IVec3 :=
  [(⟨-1, -1, -1⟩ : IVec3), ⟨-1, -1, -1⟩, ⟨-1, -1, -1⟩, ⟨3, 4, 1⟩, ⟨-1, -1, -1⟩,
   ⟨3, 2, 1⟩, ⟨0, 4, 2⟩, ⟨-1, -1, -1⟩, ⟨-1, -1, -1⟩, ⟨2, 4, 0⟩, ⟨1, 2, 3⟩,
   ⟨-1, -1, -1⟩, ⟨1, 4, 3⟩, ⟨-1, -1, -1⟩, ⟨-1, -1, -1⟩, ⟨-1, -1, -1⟩].getD i
    ⟨-1, -1, -1⟩

/-- `BuildTris::CreateTri` (sdf.h line 282): emits one triangle unless the
case-table entry is the sentinel. The accumulator is the shared triangle
counter and the writes into the triangle buffer. -/
def CreateTri (tri : IVec3) (edges : List Int) (acc : Nat × List (Nat × IVec3)) :
    Nat × List (Nat × IVec3) :=
  if tri.x < 0 then acc
  else (acc.1 + 1, acc.2 ++ [(acc.1,
    ⟨edges.getD tri.x.toNat (-1), edges.getD tri.y.toNat (-1),
     edges.getD tri.z.toNat (-1)⟩)])

/-- `BuildTris::CreateTris` (sdf.h line 289). -/
def CreateTris (tet : GridIndex) (edges : List Int)
    (acc : Nat × List (Nat × IVec3)) : Nat × List (Nat × IVec3) :=
  let i := (if tet.x > 0 then 1 else 0) + (if tet.y > 0 then 2 else 0) +
    (if tet.z > 0 then 4 else 0) + (if tet.w > 0 then 8 else 0)
  CreateTri (TetTri1 i) edges (CreateTri (TetTri0 i) edges acc)

/-- Canonical corner-sign vector realising a given 4-bit inside mask. -/
def tetOfMask (m : Nat) : GridIndex :=
  ⟨if m.testBit 0 then 1 else -1, if m.testBit 1 then 1 else -1,
   if m.testBit 2 then 1 else -1, if m.testBit 3 then 1 else -1⟩

/-- Component read of a `glm::ivec4` by runtime index. -/
def GridIndex.nth (g : GridIndex) (j : Nat) : Int := [g.x, g.y, g.z, g.w].getD j 0

/-- Component write of a `glm::ivec4` by runtime index. -/
def GridIndex.setNth (g : GridIndex) (j : Nat) (v : Int) : GridIndex :=
  match j with
  | 0 => { g with x := v }
  | 1 => { g with y := v }
  | 2 => { g with z := v }
  | 3 => { g with w := v }
  | _ => g

/-- One iteration of the loop over the three axes in
`BuildTris::operator()` (sdf.h lines 320-355). The state carries the
mutable `tet`, `thisVert`, and the triangle accumulator; `lookup`
abstracts the table access `gridVerts[MortonCode(idx)]`. -/
def trisIter (lookup : GridIndex → GridVert) (base : GridVert)
    (baseIndex leadIndex : GridIndex)
    (s : GridIndex × GridVert × (Nat × List (Nat × IVec3))) (i : Nat) :
    GridIndex × GridVert × (Nat × List (Nat × IVec3)) :=
  match s with
  | (tet, thisVert, acc) =>
    let thisIndexA := leadIndex.setNth (Prev3 i) (leadIndex.nth (Prev3 i) - 1)
    let nextVert := if thisIndexA.nth (Prev3 i) < 0 then {} else lookup thisIndexA
    let tetA : GridIndex := { tet with w := base.NeighborInside (Prev3 i + 4) }
    let edges1 : List Int :=
      [base.edgeVerts.getD 0 (-1), base.edgeVerts.getD (i + 1) (-1),
       nextVert.edgeVerts.getD (Next3 i + 4) (-1),
       nextVert.edgeVerts.getD (Prev3 i + 1) (-1),
       thisVert.edgeVerts.getD (i + 4) (-1),
       base.edgeVerts.getD (Prev3 i + 4) (-1)]
    let accA := CreateTris tetA edges1 acc
    let thisIndexB := baseIndex.setNth (Next3 i) (baseIndex.nth (Next3 i) + 1)
    let nextVertB := lookup thisIndexB
    let tetB : GridIndex := ⟨tetA.x, tetA.y, tetA.w,
      base.NeighborInside (Next3 i + 1)⟩
    let edges2 : List Int :=
      [base.edgeVerts.getD 0 (-1), edges1.getD 5 (-1),
       nextVert.edgeVerts.getD (i + 4) (-1),
       nextVertB.edgeVerts.getD (Next3 i + 4) (-1),
       edges1.getD 3 (-1),
       base.edgeVerts.getD (Next3 i + 1) (-1)]
    let accB := CreateTris tetB edges2 accA
    ({ tetB with z := tetB.w }, nextVertB, accB)

/-- `BuildTris::operator()` (sdf.h line 297) for one slot's record `base`,
with the table lookup abstracted as a function. -/
def BuildTris.body (lookup : GridIndex → GridVert) (base : GridVert)
    (acc : Nat × List (Nat × IVec3)) : Nat × List (Nat × IVec3) :=
  if base.key = kOpen then acc
  else
    let baseIndex := DecodeMorton base.key
    let leadIndex := if baseIndex.w = 0 then { baseIndex with w := 1 }
      else ⟨baseIndex.x + 1, baseIndex.y + 1, baseIndex.z + 1, 0⟩
    let tet0 : GridIndex := ⟨base.NeighborInside 0, base.Inside, -2, -2⟩
    let thisIndex0 : GridIndex := { baseIndex with x := baseIndex.x + 1 }
    let thisVert0 := lookup thisIndex0
    let tet1 : GridIndex := { tet0 with z := base.NeighborInside 1 }
    ([0, 1, 2].foldl (trisIter lookup base baseIndex leadIndex)
      (tet1, thisVert0, acc)).2.2

/-- The triangle pass step on a table slot, instantiating the lookup with
the real table access. -/
def BuildTris.step (t : HashTableD) (acc : Nat × List (Nat × IVec3)) (idx : Nat) :
    Nat × List (Nat × IVec3) :=
  BuildTris.body (fun gi => (t.get (MortonCode gi)).getD {}) (t.At idx) acc

/-- Context for the claim C5 counterexample: an SDF that is 0 on the plane
x = 11/2 and -1 elsewhere; grid vertex (5,5,5,0) has distance -1 and its
+x edge endpoint value 0. -/
def ctxC5 : ComputeVerts :=
  ⟨fun p => if p.x = 11 / 2 then 0 else -1, ⟨0, 0, 0⟩, ⟨100, 100, 100⟩, ⟨1, 1, 1⟩, 0⟩

/-- Rewrites a masked value bit by bit, putting the mask bit in `decide`
form so that concrete masks evaluate during simplification. -/
theorem tb_and (v m i : Nat) :
    (v &&& m).testBit i = (decide (m / 2 ^ i % 2 = 1) && v.testBit i) := by
  rw [Nat.testBit_and, Bool.and_comm]
  congr 1
  rw [Nat.testBit_to_div_mod]

theorem tb_shl (x s i : Nat) :
    (x <<< s).testBit i = (decide (s ≤ i) && x.testBit (i - s)) := by
  simp [Nat.testBit_shiftLeft, ge_iff_le]

theorem tb_shr (x s i : Nat) :
    (x >>> s).testBit i = x.testBit (s + i) := by
  simp [Nat.testBit_shiftRight]

theorem spreadBits3_lt : ∀ v : Nat, SpreadBits3 v < 2 ^ 61 := by
  intro v
  have h : SpreadBits3 v ≤ 0x1249249249249249 := Nat.and_le_right
  omega

theorem squeezeBits3_lt : ∀ v : Nat, SqueezeBits3 v < 2 ^ 21 := by
  intro v
  have h : SqueezeBits3 v ≤ 0x1fffff := Nat.and_le_right
  omega

set_option maxHeartbeats 8000000 in
/-- Bit-level behaviour of `SpreadBits3`: source bit `i / 3` lands at
position `i` when `3 ∣ i`, every other output bit is clear. -/
theorem spreadBits3_testBit (v i : Nat) :
    (SpreadBits3 v).testBit i =
      (decide (i % 3 = 0) && decide (i < 63) && v.testBit (i / 3)) := by
  by_cases h : i < 61
  · interval_cases i <;>
    · simp only [SpreadBits3, tb_and, tb_shl, Nat.testBit_or]
      simp
  · have h1 : (SpreadBits3 v).testBit i = false := by
      apply Nat.testBit_lt_two_pow
      calc SpreadBits3 v < 2 ^ 61 := spreadBits3_lt v
        _ ≤ 2 ^ i := Nat.pow_le_pow_right (by norm_num) (by omega)
    rw [h1]
    rcases Nat.lt_or_ge i 63 with h' | h'
    · have h2 : ¬ i % 3 = 0 := by omega
      simp [h2]
    · have h2 : ¬ i < 63 := by omega
      simp [h2]

set_option maxHeartbeats 4000000 in
/-- Bit-level behaviour of `SqueezeBits3`: output bit `i` is input bit
`3 * i` for `i < 21`, and clear above. -/
theorem squeezeBits3_testBit (v i : Nat) :
    (SqueezeBits3 v).testBit i = (decide (i < 21) && v.testBit (3 * i)) := by
  by_cases h : i < 21
  · interval_cases i <;>
    · simp only [SqueezeBits3, tb_and, tb_shr, Nat.testBit_xor]
      simp
  · have h1 : (SqueezeBits3 v).testBit i = false := by
      apply Nat.testBit_lt_two_pow
      calc SqueezeBits3 v < 2 ^ 21 := squeezeBits3_lt v
        _ ≤ 2 ^ i := Nat.pow_le_pow_right (by norm_num) (by omega)
    rw [h1]
    simp [h]

/-- The bit-spread identity: `SqueezeBits3` undoes `SpreadBits3` on 21-bit
values. -/
theorem squeeze_spread (v : Nat) (h : v < 2 ^ 21) :
    SqueezeBits3 (SpreadBits3 v) = v := by
  apply Nat.eq_of_testBit_eq
  intro i
  rw [squeezeBits3_testBit, spreadBits3_testBit]
  by_cases hi : i < 21
  · have h3 : 3 * i % 3 = 0 := by omega
    have h3' : 3 * i < 63 := by omega
    have h3'' : 3 * i / 3 = i := by omega
    simp [hi, h3, h3', h3'']
  · have hv : v.testBit i = false := by
      apply Nat.testBit_lt_two_pow
      calc v < 2 ^ 21 := h
        _ ≤ 2 ^ i := Nat.pow_le_pow_right (by norm_num) (by omega)
    simp [hi, hv]

theorem testBit_le_one {w : Nat} (hw : w ≤ 1) {j : Nat} (hj : j ≠ 0) :
    w.testBit j = false := by
  apply Nat.testBit_lt_two_pow
  have h2 : (2:Nat) ^ 1 ≤ 2 ^ j := Nat.pow_le_pow_right (by norm_num) (by omega)
  omega

theorem toUint64_of_small {t : Int} (h0 : 0 ≤ t) (h : t < 2 ^ 21) :
    toUint64 t = t.toNat := by
  unfold toUint64
  rw [Int.emod_eq_of_lt h0 (by omega)]

theorem toUint64_small_lt {t : Int} (h0 : 0 ≤ t) (h : t < 2 ^ 21) :
    toUint64 t < 2 ^ 21 := by
  rw [toUint64_of_small h0 h]
  omega

theorem mortonNat_decode_x (x y z w : Nat) (hx : x < 2 ^ 21) (hw : w ≤ 1) :
    SqueezeBits3 (mortonNat x y z w >>> 1) = x := by
  apply Nat.eq_of_testBit_eq
  intro i
  rw [squeezeBits3_testBit, tb_shr]
  simp only [mortonNat, Nat.testBit_or, tb_shl, spreadBits3_testBit]
  by_cases hi : i < 21
  · have hwb : w.testBit (1 + 3 * i) = false := testBit_le_one hw (by omega)
    have e1 : (1:Nat) ≤ 1 + 3 * i := by omega
    have e2 : 1 + 3 * i - 1 = 3 * i := by omega
    have e3 : (3 * i) % 3 = 0 := by omega
    have e4 : 3 * i < 63 := by omega
    have e5 : 3 * i / 3 = i := by omega
    rcases Nat.eq_zero_or_pos i with hz | hpos
    · subst hz; simp [hwb]
    · have f1 : (2:Nat) ≤ 1 + 3 * i := by omega
      have f2 : (3:Nat) ≤ 1 + 3 * i := by omega
      have f3 : 1 + 3 * i - 2 = 3 * i - 1 := by omega
      have f4 : ¬ (3 * i - 1) % 3 = 0 := by omega
      have f5 : 1 + 3 * i - 3 = 3 * i - 2 := by omega
      have f6 : ¬ (3 * i - 2) % 3 = 0 := by omega
      simp [hwb, e1, e2, e3, e4, e5, f1, f2, f3, f4, f5, f6, hi]
  · have hxb : x.testBit i = false := by
      apply Nat.testBit_lt_two_pow
      have : (2:Nat) ^ 21 ≤ 2 ^ i := Nat.pow_le_pow_right (by norm_num) (by omega)
      omega
    simp [hi, hxb]

theorem mortonNat_decode_y (x y z w : Nat) (hy : y < 2 ^ 21) (hw : w ≤ 1) :
    SqueezeBits3 (mortonNat x y z w >>> 2) = y := by
  apply Nat.eq_of_testBit_eq
  intro i
  rw [squeezeBits3_testBit, tb_shr]
  simp only [mortonNat, Nat.testBit_or, tb_shl, spreadBits3_testBit]
  by_cases hi : i < 21
  · have hwb : w.testBit (2 + 3 * i) = false := testBit_le_one hw (by omega)
    have e1 : (1:Nat) ≤ 2 + 3 * i := by omega
    have e2 : 2 + 3 * i - 1 = 3 * i + 1 := by omega
    have e3 : ¬ (3 * i + 1) % 3 = 0 := by omega
    have e4 : (2:Nat) ≤ 2 + 3 * i := by omega
    have e5 : 2 + 3 * i - 2 = 3 * i := by omega
    have e6 : (3 * i) % 3 = 0 := by omega
    have e7 : 3 * i < 63 := by omega
    have e8 : 3 * i / 3 = i := by omega
    rcases Nat.eq_zero_or_pos i with hz | hpos
    · subst hz; simp [hwb]
    · have f1 : (3:Nat) ≤ 2 + 3 * i := by omega
      have f2 : 2 + 3 * i - 3 = 3 * i - 1 := by omega
      have f3 : ¬ (3 * i - 1) % 3 = 0 := by omega
      simp [hwb, e1, e2, e3, e4, e5, e6, e7, e8, f1, f2, f3, hi]
  · have hyb : y.testBit i = false := by
      apply Nat.testBit_lt_two_pow
      have : (2:Nat) ^ 21 ≤ 2 ^ i := Nat.pow_le_pow_right (by norm_num) (by omega)
      omega
    simp [hi, hyb]

theorem mortonNat_decode_z (x y z w : Nat) (hz : z < 2 ^ 21) (hw : w ≤ 1) :
    SqueezeBits3 (mortonNat x y z w >>> 3) = z := by
  apply Nat.eq_of_testBit_eq
  intro i
  rw [squeezeBits3_testBit, tb_shr]
  simp only [mortonNat, Nat.testBit_or, tb_shl, spreadBits3_testBit]
  by_cases hi : i < 21
  · have hwb : w.testBit (3 + 3 * i) = false := testBit_le_one hw (by omega)
    have e1 : (1:Nat) ≤ 3 + 3 * i := by omega
    have e2 : 3 + 3 * i - 1 = 3 * i + 2 := by omega
    have e3 : ¬ (3 * i + 2) % 3 = 0 := by omega
    have e4 : (2:Nat) ≤ 3 + 3 * i := by omega
    have e5 : 3 + 3 * i - 2 = 3 * i + 1 := by omega
    have e6 : ¬ (3 * i + 1) % 3 = 0 := by omega
    have e7 : (3:Nat) ≤ 3 + 3 * i := by omega
    have e8 : 3 + 3 * i - 3 = 3 * i := by omega
    have e9 : (3 * i) % 3 = 0 := by omega
    have e10 : 3 * i < 63 := by omega
    have e11 : 3 * i / 3 = i := by omega
    simp [hwb, e1, e2, e3, e4, e5, e6, e7, e8, e9, e10, e11, hi]
  · have hzb : z.testBit i = false := by
      apply Nat.testBit_lt_two_pow
      have : (2:Nat) ^ 21 ≤ 2 ^ i := Nat.pow_le_pow_right (by norm_num) (by omega)
      omega
    simp [hi, hzb]

theorem mortonNat_decode_w (x y z w : Nat) (hw : w ≤ 1) :
    mortonNat x y z w &&& 1 = w := by
  apply Nat.eq_of_testBit_eq
  intro i
  rw [tb_and]
  simp only [mortonNat, Nat.testBit_or, tb_shl, spreadBits3_testBit]
  rcases Nat.eq_zero_or_pos i with hz | hpos
  · subst hz; simp
  · have h1 : (1:Nat) / 2 ^ i % 2 = 0 := by
      have h2 : (2:Nat) ^ 1 ≤ 2 ^ i := Nat.pow_le_pow_right (by norm_num) (by omega)
      have h3 : (1:Nat) / 2 ^ i = 0 := Nat.div_eq_of_lt (by omega)
      omega
    have hwb : w.testBit i = false := testBit_le_one hw (by omega)
    simp [h1, hwb]

/-- Claim C2: for every GridIndex idx with each of x, y, z in [0, 2^21) and
w in \x7b0, 1\x7d, DecodeMorton (MortonCode idx) = idx. -/
theorem decodeMorton_mortonCode (idx : GridIndex)
    (hx0 : 0 ≤ idx.x) (hx : idx.x < 2 ^ 21)
    (hy0 : 0 ≤ idx.y) (hy : idx.y < 2 ^ 21)
    (hz0 : 0 ≤ idx.z) (hz : idx.z < 2 ^ 21)
    (hw : idx.w = 0 ∨ idx.w = 1) :
    DecodeMorton (MortonCode idx) = idx := by
  obtain ⟨x, y, z, w⟩ := idx
  simp only at hx0 hx hy0 hy hz0 hz hw
  have hw0 : 0 ≤ w := by rcases hw with h | h <;> omega
  have hw1 : w < 2 ^ 21 := by rcases hw with h | h <;> omega
  have hwle : toUint64 w ≤ 1 := by
    rw [toUint64_of_small hw0 hw1]
    rcases hw with h | h <;> simp [h]
  have hM : MortonCode ⟨x, y, z, w⟩ =
      mortonNat (toUint64 x) (toUint64 y) (toUint64 z) (toUint64 w) := rfl
  simp only [DecodeMorton, hM]
  rw [mortonNat_decode_x _ _ _ _ (toUint64_small_lt hx0 hx) hwle,
    mortonNat_decode_y _ _ _ _ (toUint64_small_lt hy0 hy) hwle,
    mortonNat_decode_z _ _ _ _ (toUint64_small_lt hz0 hz) hwle,
    mortonNat_decode_w _ _ _ _ hwle]
  rw [toUint64_of_small hx0 hx, toUint64_of_small hy0 hy,
    toUint64_of_small hz0 hz, toUint64_of_small hw0 hw1]
  simp [Int.toNat_of_nonneg, hx0, hy0, hz0, hw0]

/-- Witness for claim C2 at the concrete index (5, 1000, 2097151, 1). -/
theorem decodeMorton_mortonCode_witness :
    (0 ≤ (5:Int) ∧ (5:Int) < 2 ^ 21) ∧
      DecodeMorton (MortonCode ⟨5, 1000, 2097151, 1⟩) = ⟨5, 1000, 2097151, 1⟩ :=
  ⟨⟨by decide, by decide⟩,
    decodeMorton_mortonCode ⟨5, 1000, 2097151, 1⟩ (by decide) (by decide)
      (by decide) (by decide) (by decide) (by decide) (by decide)⟩

@[simp] theorem Vec3.add_e (a b : Vec3) :
    a + b = ⟨a.x + b.x, a.y + b.y, a.z + b.z⟩ := rfl

@[simp] theorem Vec3.sub_e (a b : Vec3) :
    a - b = ⟨a.x - b.x, a.y - b.y, a.z - b.z⟩ := rfl

@[simp] theorem Vec3.mul_e (a b : Vec3) :
    a * b = ⟨a.x * b.x, a.y * b.y, a.z * b.z⟩ := rfl

@[simp] theorem Vec3.smul_e (q : ℚ) (a : Vec3) :
    q • a = ⟨q * a.x, q * a.y, q * a.z⟩ := rfl

@[simp] theorem Vec3.div_e (a : Vec3) (q : ℚ) :
    a / q = ⟨a.x / q, a.y / q, a.z / q⟩ := rfl

theorem size_pos {t : HashTableD} {k : Nat} (hn : t.Size = 2 ^ k) : 0 < t.Size := by
  rw [hn]; positivity

theorem probe_zero {t : HashTableD} {start : Nat} (h : start < t.Size) :
    probe t start 0 = start := by
  simp [probe, Nat.mod_eq_of_lt h]

theorem probe_lt {t : HashTableD} {k : Nat} (hn : t.Size = 2 ^ k) (start j : Nat) :
    probe t start j < t.Size :=
  Nat.mod_lt _ (size_pos hn)

theorem probe_succ_shift {t : HashTableD} (start j : Nat) :
    probe t ((start + t.step) % t.Size) j = probe t start (j + 1) := by
  unfold probe
  rw [Nat.mod_add_mod]
  congr 1
  ring

/-- The lookup loop returns the slot at the first stopping probe position,
provided some probe position within the fuel stops. -/
theorem lookupLoop_finds (t : HashTableD) (key : Nat) (k : Nat)
    (hn : t.Size = 2 ^ k) :
    ∀ (fuel : Nat) (start : Nat), start < t.Size →
      (∃ j, j < fuel ∧ stopAt t key (probe t start j)) →
      ∃ j, j < fuel ∧ stopAt t key (probe t start j) ∧
        (∀ j', j' < j → ¬ stopAt t key (probe t start j')) ∧
        lookupLoop t key start fuel = some (t.slot (probe t start j)) := by
  intro fuel
  induction fuel with
  | zero =>
    intro start _ h
    exact absurd h (by simp)
  | succ fuel ih =>
    intro start hstart hex
    by_cases hs : stopAt t key start
    · refine ⟨0, by omega, ?_, ?_, ?_⟩
      · rwa [probe_zero hstart]
      · omega
      · rw [probe_zero hstart]
        unfold lookupLoop
        rw [if_pos]
        exact hs
    · have hnext : (start + t.step) &&& (t.Size - 1) = (start + t.step) % t.Size := by
        rw [hn, Nat.and_pow_two_sub_one_eq_mod]
      have hstart' : (start + t.step) % t.Size < t.Size :=
        Nat.mod_lt _ (size_pos hn)
      obtain ⟨j, hj, hjs⟩ := hex
      have hjne : j ≠ 0 := by
        intro h0
        rw [h0, probe_zero hstart] at hjs
        exact hs hjs
      have hex' : ∃ j', j' < fuel ∧ stopAt t key (probe t ((start + t.step) % t.Size) j') := by
        refine ⟨j - 1, by omega, ?_⟩
        rw [probe_succ_shift]
        have : j - 1 + 1 = j := by omega
        rwa [this]
      obtain ⟨j0, hj0, hj0s, hj0min, hj0eq⟩ := ih _ hstart' hex'
      refine ⟨j0 + 1, by omega, ?_, ?_, ?_⟩
      · rwa [← probe_succ_shift]
      · intro j' hj'
        rcases Nat.eq_zero_or_pos j' with h0 | hpos
        · rw [h0, probe_zero hstart]
          exact hs
        · have : j' - 1 < j0 := by omega
          have hmin := hj0min _ this
          rw [probe_succ_shift] at hmin
          have e : j' - 1 + 1 = j' := by omega
          rwa [e] at hmin
      · unfold lookupLoop
        rw [if_neg]
        · rw [hnext, hj0eq, ← probe_succ_shift]
        · exact hs

/-- The insert loop acts at the first stopping probe position: it claims
the slot if that slot is open, and is a no-op if the slot holds the key. -/
theorem insertLoop_finds (t : HashTableD) (vert : GridVert) (k : Nat)
    (hn : t.Size = 2 ^ k) :
    ∀ (fuel : Nat) (start : Nat), start < t.Size →
      (∃ j, j < fuel ∧ stopIns t vert.key (probe t start j)) →
      ∃ j, j < fuel ∧ stopIns t vert.key (probe t start j) ∧
        (∀ j', j' < j → ¬ stopIns t vert.key (probe t start j')) ∧
        insertLoop vert t start fuel =
          (if (t.slot (probe t start j)).key = kOpen then
            some { t with table := t.table.set (probe t start j) vert,
                          used := t.used + 1 }
          else some t) := by
  intro fuel
  induction fuel with
  | zero =>
    intro start _ h
    exact absurd h (by simp)
  | succ fuel ih =>
    intro start hstart hex
    by_cases hs : stopIns t vert.key start
    · refine ⟨0, by omega, ?_, ?_, ?_⟩
      · rwa [probe_zero hstart]
      · omega
      · rw [probe_zero hstart]
        unfold insertLoop
        rcases hs with h | h
        · rw [if_pos h, if_pos h]
        · by_cases hopen : (t.slot start).key = kOpen
          · rw [if_pos hopen, if_pos hopen]
          · rw [if_neg hopen, if_neg hopen, if_pos h]
    · have hnext : (start + t.step) &&& (t.Size - 1) = (start + t.step) % t.Size := by
        rw [hn, Nat.and_pow_two_sub_one_eq_mod]
      have hstart' : (start + t.step) % t.Size < t.Size :=
        Nat.mod_lt _ (size_pos hn)
      obtain ⟨j, hj, hjs⟩ := hex
      have hjne : j ≠ 0 := by
        intro h0
        rw [h0, probe_zero hstart] at hjs
        exact hs hjs
      have hex' : ∃ j', j' < fuel ∧
          stopIns t vert.key (probe t ((start + t.step) % t.Size) j') := by
        refine ⟨j - 1, by omega, ?_⟩
        rw [probe_succ_shift]
        have e : j - 1 + 1 = j := by omega
        rwa [e]
      obtain ⟨j0, hj0, hj0s, hj0min, hj0eq⟩ := ih _ hstart' hex'
      refine ⟨j0 + 1, by omega, ?_, ?_, ?_⟩
      · rwa [← probe_succ_shift]
      · intro j' hj'
        rcases Nat.eq_zero_or_pos j' with h0 | hpos
        · rw [h0, probe_zero hstart]
          exact hs
        · have hlt : j' - 1 < j0 := by omega
          have hmin := hj0min _ hlt
          rw [probe_succ_shift] at hmin
          have e : j' - 1 + 1 = j' := by omega
          rwa [e] at hmin
      · have hs1 : ¬ (t.slot start).key = kOpen := fun h => hs (Or.inl h)
        have hs2 : ¬ (t.slot start).key = vert.key := fun h => hs (Or.inr h)
        unfold insertLoop
        rw [if_neg hs1, if_neg hs2, hnext, hj0eq, ← probe_succ_shift]

/-- With a stride coprime to the (positive) table size, the probe sequence
reaches every slot within `Size` probes. -/
theorem probe_surjective (t : HashTableD) (k : Nat) (hn : t.Size = 2 ^ k)
    (hco : Nat.Coprime t.step t.Size) (start q : Nat) (hq : q < t.Size) :
    ∃ j, j < t.Size ∧ probe t start j = q := by
  have hpos : 0 < t.Size := size_pos hn
  haveI : NeZero t.Size := ⟨by omega⟩
  set n := t.Size with hnn
  let u : (ZMod n)ˣ := ZMod.unitOfCoprime t.step hco
  have hu : (u : ZMod n) = (t.step : ZMod n) := ZMod.coe_unitOfCoprime t.step hco
  let j0 : ZMod n := ((q : ZMod n) - (start : ZMod n)) * (↑u⁻¹ : ZMod n)
  refine ⟨j0.val, j0.val_lt, ?_⟩
  have hcast : ((start + j0.val * t.step : Nat) : ZMod n) = (q : ZMod n) := by
    push_cast
    rw [ZMod.natCast_val, ZMod.cast_id]
    have : j0 * (t.step : ZMod n) = (q : ZMod n) - (start : ZMod n) := by
      show (((q : ZMod n) - (start : ZMod n)) * (↑u⁻¹ : ZMod n)) * (t.step : ZMod n) =
        (q : ZMod n) - (start : ZMod n)
      rw [← hu, mul_assoc]
      simp
    rw [this]
    ring
  have hmod := (ZMod.natCast_eq_natCast_iff _ _ _).mp hcast
  unfold probe
  unfold Nat.ModEq at hmod
  rw [hmod, Nat.mod_eq_of_lt hq]

theorem slot_eq_get {t : HashTableD} {q : Nat} (hq : q < t.Size) :
    t.slot q = t.table.get ⟨q, hq⟩ := by
  unfold HashTableD.slot
  rw [List.getD_eq_getElem?_getD, List.getElem?_eq_getElem hq]
  rfl

theorem slot_mem {t : HashTableD} {q : Nat} (hq : q < t.Size) :
    t.slot q ∈ t.table := by
  rw [slot_eq_get hq]
  exact List.get_mem _ q hq

/-- Characterisation of a terminating insert: the loop acts at the first
probe position whose slot is open or already holds the key. -/
theorem insertLoop_some_charac (t : HashTableD) (vert : GridVert) (k : Nat)
    (hn : t.Size = 2 ^ k) :
    ∀ (fuel : Nat) (start : Nat) (t' : HashTableD), start < t.Size →
      insertLoop vert t start fuel = some t' →
      ∃ j, j < fuel ∧ stopIns t vert.key (probe t start j) ∧
        (∀ j', j' < j → ¬ stopIns t vert.key (probe t start j')) ∧
        t' = (if (t.slot (probe t start j)).key = kOpen then
          { t with table := t.table.set (probe t start j) vert,
                   used := t.used + 1 }
        else t) := by
  intro fuel
  induction fuel with
  | zero =>
    intro start t' _ h
    simp [insertLoop] at h
  | succ fuel ih =>
    intro start t' hstart heq
    by_cases hopen : (t.slot start).key = kOpen
    · refine ⟨0, by omega, ?_, by omega, ?_⟩
      · rw [probe_zero hstart]
        exact Or.inl hopen
      · rw [probe_zero hstart, if_pos hopen]
        unfold insertLoop at heq
        rw [if_pos hopen] at heq
        exact (Option.some_injective _ heq).symm
    · by_cases hkey : (t.slot start).key = vert.key
      · refine ⟨0, by omega, ?_, by omega, ?_⟩
        · rw [probe_zero hstart]
          exact Or.inr hkey
        · rw [probe_zero hstart, if_neg hopen]
          unfold insertLoop at heq
          rw [if_neg hopen, if_pos hkey] at heq
          exact (Option.some_injective _ heq).symm
      · have hs : ¬ stopIns t vert.key start := by
          intro h
          rcases h with h | h
          · exact hopen h
          · exact hkey h
        have hnext : (start + t.step) &&& (t.Size - 1) = (start + t.step) % t.Size := by
          rw [hn, Nat.and_pow_two_sub_one_eq_mod]
        have hstart' : (start + t.step) % t.Size < t.Size :=
          Nat.mod_lt _ (size_pos hn)
        unfold insertLoop at heq
        rw [if_neg hopen, if_neg hkey, hnext] at heq
        obtain ⟨j0, hj0, hj0s, hj0min, hj0eq⟩ := ih _ _ hstart' heq
        refine ⟨j0 + 1, by omega, ?_, ?_, ?_⟩
        · rwa [← probe_succ_shift]
        · intro j' hj'
          rcases Nat.eq_zero_or_pos j' with h0 | hpos
          · rw [h0, probe_zero hstart]
            exact hs
          · have hlt : j' - 1 < j0 := by omega
            have hmin := hj0min _ hlt
            rw [probe_succ_shift] at hmin
            have e : j' - 1 + 1 = j' := by omega
            rwa [e] at hmin
        · rwa [← probe_succ_shift]

theorem countP_set_incr (p : GridVert → Bool) :
    ∀ (l : List GridVert) (q : Nat) (v : GridVert) (hq : q < l.length),
      p (l.get ⟨q, hq⟩) = false → p v = true →
      (l.set q v).countP p = l.countP p + 1 := by
  intro l
  induction l with
  | nil => intro q v hq; exact absurd hq (by simp)
  | cons a l ih =>
    intro q v hq hold hnew
    cases q with
    | zero =>
      simp only [List.set_cons_zero, List.countP_cons]
      simp only [List.get] at hold
      rw [hold, hnew]
      simp
    | succ q' =>
      simp only [List.set_cons_succ, List.countP_cons]
      simp only [List.get] at hold
      have hq' : q' < l.length := by
        simp only [List.length_cons] at hq
        omega
      rw [ih q' v hq' hold hnew]
      omega

theorem setSlot_size (t : HashTableD) (q : Nat) (v : GridVert) :
    (setSlot t q v).Size = t.Size := by
  simp [setSlot, HashTableD.Size]

theorem setSlot_probe (t : HashTableD) (q : Nat) (v : GridVert) (a b : Nat) :
    probe (setSlot t q v) a b = probe t a b := by
  unfold probe
  rw [setSlot_size]
  rfl

theorem slot_setSlot_self {t : HashTableD} {q : Nat} (hq : q < t.Size) (v : GridVert) :
    (setSlot t q v).slot q = v := by
  simp only [setSlot, HashTableD.slot, List.getD_eq_getElem?_getD]
  rw [List.getElem?_set_self hq]
  rfl

theorem slot_setSlot_ne {t : HashTableD} {q q' : Nat} (hne : q ≠ q') (v : GridVert) :
    (setSlot t q v).slot q' = t.slot q' := by
  simp only [setSlot, HashTableD.slot, List.getD_eq_getElem?_getD]
  rw [List.getElem?_set_ne hne]

/-- Insert preserves well-formedness. -/
theorem wf_insert {t t' : HashTableD} {vert : GridVert} {k : Nat}
    (hn : t.Size = 2 ^ k) (hwf : WF t) (hkey : vert.key ≠ kOpen)
    (hins : t.Insert vert = some t') : WF t' := by
  unfold HashTableD.Insert at hins
  have hmask : vert.key &&& (t.Size - 1) = vert.key % t.Size := by
    rw [hn, Nat.and_pow_two_sub_one_eq_mod]
  rw [hmask] at hins
  have hstart : vert.key % t.Size < t.Size := Nat.mod_lt _ (size_pos hn)
  obtain ⟨j, hj, hjs, hjmin, ht'⟩ :=
    insertLoop_some_charac t vert k hn t.Size _ t' hstart hins
  by_cases hopen : (t.slot (probe t (vert.key % t.Size) j)).key = kOpen
  case neg =>
    rw [if_neg hopen] at ht'
    rwa [ht']
  case pos =>
    rw [if_pos hopen] at ht'
    set q0 := probe t (vert.key % t.Size) j with hq0def
    have hq0 : q0 < t.Size := probe_lt hn _ _
    have ht'' : t' = setSlot t q0 vert := ht'
    subst ht''
    refine ⟨?_, ?_, ?_⟩
    · show t.used + 1 = _
      simp only [setSlot]
      rw [hwf.used_eq]
      have hold : (fun g => decide (g.key ≠ kOpen)) (t.table.get ⟨q0, hq0⟩) = false := by
        rw [← slot_eq_get hq0]
        simp [hopen]
      have hnew : (fun g => decide (g.key ≠ kOpen)) vert = true := by simp [hkey]
      exact (countP_set_incr (fun g => decide (g.key ≠ kOpen)) t.table q0 vert hq0
        hold hnew).symm
    · intro g hg hgopen
      rcases List.mem_or_eq_of_mem_set hg with hmem | heq
      · exact hwf.open_default g hmem hgopen
      · subst heq
        exact absurd hgopen hkey
    · intro q hq hqopen
      rw [setSlot_size] at hq
      by_cases hqq : q = q0
      · subst hqq
        rw [slot_setSlot_self hq] at hqopen ⊢
        rw [setSlot_size]
        refine ⟨j, hj, ?_, ?_⟩
        · rw [setSlot_probe]
        · intro j' hj'
          have hmin := hjmin j' hj'
          have hne : probe t (vert.key % t.Size) j' ≠ q0 := by
            intro he
            apply hmin
            rw [he]
            exact Or.inl hopen
          rw [setSlot_probe, slot_setSlot_ne (fun h => hne h.symm)]
          constructor
          · intro h
            exact hmin (Or.inl h)
          · intro h
            exact hmin (Or.inr h)
      · rw [slot_setSlot_ne (fun h => hqq h.symm)] at hqopen ⊢
        rw [setSlot_size]
        obtain ⟨j1, hj1, hj1eq, hj1min⟩ := hwf.find q hq hqopen
        refine ⟨j1, hj1, ?_, ?_⟩
        · rw [setSlot_probe]
          exact hj1eq
        · intro j' hj'
          obtain ⟨ha, hb⟩ := hj1min j' hj'
          have hne : probe t ((t.slot q).key % t.Size) j' ≠ q0 := by
            intro he
            rw [he] at ha
            exact ha hopen
          rw [setSlot_probe, slot_setSlot_ne (fun h => hne h.symm)]
          exact ⟨ha, hb⟩

theorem insertLoop_some_size {t : HashTableD} {vert : GridVert} :
    ∀ (fuel start : Nat) (t' : HashTableD),
      insertLoop vert t start fuel = some t' →
      t'.Size = t.Size ∧ t'.step = t.step := by
  intro fuel
  induction fuel with
  | zero => intro start t' h; simp [insertLoop] at h
  | succ fuel ih =>
    intro start t' h
    unfold insertLoop at h
    by_cases hopen : (t.slot start).key = kOpen
    · rw [if_pos hopen] at h
      have := (Option.some_injective _ h).symm
      subst this
      constructor
      · simp [HashTableD.Size]
      · rfl
    · rw [if_neg hopen] at h
      by_cases hkey : (t.slot start).key = vert.key
      · rw [if_pos hkey] at h
        have := (Option.some_injective _ h).symm
        subst this
        exact ⟨rfl, rfl⟩
      · rw [if_neg hkey] at h
        exact ih _ _ h

theorem insert_some_size {t t' : HashTableD} {vert : GridVert}
    (h : t.Insert vert = some t') : t'.Size = t.Size ∧ t'.step = t.step :=
  insertLoop_some_size _ _ _ h

theorem slot_replicate {step n : Nat} {q : Nat}
    (hq : q < (⟨step, List.replicate n ({} : GridVert), 0⟩ : HashTableD).Size) :
    (⟨step, List.replicate n ({} : GridVert), 0⟩ : HashTableD).slot q = {} := by
  have hq' : q < n := by simpa [HashTableD.Size] using hq
  simp [HashTableD.slot, List.getD_eq_getElem?_getD, List.getElem?_replicate, hq']

theorem wf_empty (step n : Nat) : WF ⟨step, List.replicate n {}, 0⟩ := by
  refine ⟨?_, ?_, ?_⟩
  · symm
    rw [List.countP_eq_zero]
    intro g hg
    have : g = ({} : GridVert) := List.eq_of_mem_replicate hg
    subst this
    simp [kOpen]
  · intro g hg _
    exact List.eq_of_mem_replicate hg
  · intro q hq hqopen
    exact absurd (by rw [slot_replicate hq]) hqopen

theorem built_wf {t : HashTableD} {k : Nat} (hb : Built t) :
    t.Size = 2 ^ k → WF t := by
  induction hb with
  | empty step n => intro _; exact wf_empty step n
  | insert vert hkey hb hins ih =>
    intro hn'
    have hsz := insert_some_size hins
    have hnt := hsz.1.symm.trans hn'
    exact wf_insert hnt (ih hnt) hkey hins

theorem exists_open_index {t : HashTableD}
    (hempty : ∃ g ∈ t.table, g.key = kOpen) :
    ∃ qe, qe < t.Size ∧ (t.slot qe).key = kOpen := by
  obtain ⟨g, hg, hgk⟩ := hempty
  obtain ⟨i, hi, hig⟩ := List.getElem_of_mem hg
  refine ⟨i, hi, ?_⟩
  rw [slot_eq_get hi]
  rw [List.get_eq_getElem, hig]
  exact hgk

/-- Claim C7: on a power-of-two table with stride coprime to the capacity,
whose occupied slots were produced only by Insert and which retains an
empty slot, lookup returns the stored record with the requested key when
one exists, returns the default record upon reaching an empty slot
otherwise, and its probe loop terminates. -/
theorem lookup_correct (t : HashTableD) (k : Nat)
    (hn : t.Size = 2 ^ k) (hco : Nat.Coprime t.step t.Size)
    (hb : Built t) (hempty : ∃ g ∈ t.table, g.key = kOpen) (key : Nat) :
    t.get key ≠ none ∧
    (∀ g ∈ t.table, g.key = key → t.get key = some g) ∧
    ((∀ g ∈ t.table, g.key ≠ key) → t.get key = some {}) := by
  have hwf : WF t := built_wf hb hn
  have hmask : key &&& (t.Size - 1) = key % t.Size := by
    rw [hn, Nat.and_pow_two_sub_one_eq_mod]
  have hget : t.get key = lookupLoop t key (key % t.Size) t.Size := by
    unfold HashTableD.get
    rw [hmask]
  have hstart : key % t.Size < t.Size := Nat.mod_lt _ (size_pos hn)
  obtain ⟨qe, hqe, hqeopen⟩ := exists_open_index hempty
  obtain ⟨je, hje, hjeeq⟩ := probe_surjective t k hn hco (key % t.Size) qe hqe
  have hstop : ∃ j, j < t.Size ∧ stopAt t key (probe t (key % t.Size) j) := by
    refine ⟨je, hje, ?_⟩
    rw [hjeeq]
    exact Or.inr hqeopen
  obtain ⟨j0, hj0, hj0s, hj0min, hj0eq⟩ :=
    lookupLoop_finds t key k hn t.Size (key % t.Size) hstart hstop
  rw [hget, hj0eq]
  have hj0lt : probe t (key % t.Size) j0 < t.Size := probe_lt hn _ _
  refine ⟨by simp, ?_, ?_⟩
  · intro g hg hgkey
    obtain ⟨qg, hqg, hqgeq⟩ := List.getElem_of_mem hg
    have hslotg : t.slot qg = g := by
      rw [slot_eq_get hqg, List.get_eq_getElem, hqgeq]
    by_cases hko : g.key = kOpen
    · have hgdefault : g = {} := hwf.open_default g hg hko
      have hkeyopen : key = kOpen := hgkey ▸ hko
      have hslotopen : (t.slot (probe t (key % t.Size) j0)).key = kOpen := by
        rcases hj0s with h | h
        · exact h.trans hkeyopen
        · exact h
      have : t.slot (probe t (key % t.Size) j0) = {} :=
        hwf.open_default _ (slot_mem hj0lt) hslotopen
      rw [this, hgdefault]
    · obtain ⟨j1, hj1, hj1eq, hj1min⟩ := hwf.find qg hqg (by rw [hslotg]; exact hko)
      rw [hslotg, hgkey] at hj1eq hj1min
      have hj01 : j0 = j1 := by
        by_contra hne
        rcases Nat.lt_or_ge j0 j1 with hlt | hge
        · obtain ⟨ha, hb2⟩ := hj1min j0 hlt
          exact absurd hj0s (by
            intro hstop'
            rcases hstop' with h | h
            · exact hb2 h
            · exact ha h)
        · have hlt : j1 < j0 := by omega
          apply hj0min j1 hlt
          rw [hj1eq]
          unfold stopAt
          rw [hslotg]
          exact Or.inl hgkey
      rw [hj01, hj1eq, hslotg]
  · intro habsent
    have hslotopen : (t.slot (probe t (key % t.Size) j0)).key = kOpen := by
      rcases hj0s with h | h
      · exact absurd h (habsent _ (slot_mem hj0lt))
      · exact h
    rw [hwf.open_default _ (slot_mem hj0lt) hslotopen]

@[simp] theorem GridIndex.add4_e (a b : GridIndex) :
    a + b = ⟨a.x + b.x, a.y + b.y, a.z + b.z, a.w + b.w⟩ := rfl

/-- Claim C3: BoundedSDF clamps to min d 0 on the grid frontier (any
component of xyz at most 0, or at least gridSize, or w = 1 with any
component at least gridSize - 1) and returns d unclamped otherwise. -/
theorem boundedSDF_spec (c : ComputeVerts) (idx : GridIndex) :
    c.BoundedSDF idx =
      if (idx.x ≤ 0 ∨ idx.y ≤ 0 ∨ idx.z ≤ 0) ∨
         (idx.x ≥ c.gridSize.x ∨ idx.y ≥ c.gridSize.y ∨ idx.z ≥ c.gridSize.z) ∨
         (idx.w = 1 ∧ (idx.x ≥ c.gridSize.x - 1 ∨ idx.y ≥ c.gridSize.y - 1 ∨
           idx.z ≥ c.gridSize.z - 1))
      then min (c.sdf (c.Position idx) - c.level) 0
      else c.sdf (c.Position idx) - c.level := rfl

theorem step_full_eq (c : ComputeVerts) (st : VertexState) (code : Nat)
    (h : st.gridVerts.Full = true) : c.step st code = some st := by
  unfold ComputeVerts.step
  rw [h]
  simp

/-- Claim C4, amended: the Full check is performed by the vertex-pass
functor, which returns before doing anything, leaving counter, writes and
table untouched. -/
theorem step_full_drops (c : ComputeVerts) (st : VertexState) (code : Nat)
    (h : st.gridVerts.Full = true) : c.step st code = some st :=
  step_full_eq c st code h

/-- Claim C4, counterexample: `HashTableD::Insert` itself performs no Full
check; called on a Full (but not saturated) table it claims a slot and
bumps the used counter rather than dropping the insert. The table is
reachable by Insert calls alone. -/
theorem insert_full_counterexample :
    Built fullTable ∧
    fullTable.Full = true ∧
    fullTable.Insert ⟨3, some 1, [-1, -1, -1, -1, -1, -1, -1]⟩ =
      some ⟨127,
        [⟨0, some 1, [-1, -1, -1, -1, -1, -1, -1]⟩,
         ⟨1, some 1, [-1, -1, -1, -1, -1, -1, -1]⟩,
         ⟨2, some 1, [-1, -1, -1, -1, -1, -1, -1]⟩,
         ⟨3, some 1, [-1, -1, -1, -1, -1, -1, -1]⟩], 4⟩ ∧
    (∀ t', fullTable.Insert ⟨3, some 1, [-1, -1, -1, -1, -1, -1, -1]⟩ = some t' →
      t'.used ≠ fullTable.used) := by
  refine ⟨?_, by decide, by decide, by decide⟩
  have h1 : Built ⟨127, List.replicate 4 {}, 0⟩ := Built.empty 127 4
  have h2 : Built ⟨127, [⟨0, some 1, [-1, -1, -1, -1, -1, -1, -1]⟩, {}, {}, {}], 1⟩ :=
    Built.insert (t := ⟨127, List.replicate 4 {}, 0⟩)
      (⟨0, some 1, [-1, -1, -1, -1, -1, -1, -1]⟩ : GridVert) (by decide) h1 (by decide)
  have h3 : Built ⟨127, [⟨0, some 1, [-1, -1, -1, -1, -1, -1, -1]⟩,
      ⟨1, some 1, [-1, -1, -1, -1, -1, -1, -1]⟩, {}, {}], 2⟩ :=
    Built.insert
      (⟨1, some 1, [-1, -1, -1, -1, -1, -1, -1]⟩ : GridVert) (by decide) h2 (by decide)
  exact Built.insert
    (⟨2, some 1, [-1, -1, -1, -1, -1, -1, -1]⟩ : GridVert) (by decide) h3 (by decide)

/-- Claim C5, amended: owned edge `i` records no crossing (edgeVerts stays
-1 and the counter does not move) exactly when `(val > 0) == (d > 0)`. A
value of exactly zero therefore has negative sign: an edge with endpoint
values 0 and a negative number records no crossing. -/
theorem processEdge_no_crossing_iff (c : ComputeVerts) (gridIndex : GridIndex)
    (position : Vec3) (d : ℚ) (edgeVerts : List Int) (keep : Bool)
    (vertIndex : Nat) (writes : List (Nat × Vec3)) (i : Nat)
    (hinit : edgeVerts.getD i (-1) = -1) :
    ((processEdge c gridIndex position d (edgeVerts, keep, vertIndex, writes) i).1.getD
        i (-1) = -1 ∧
     (processEdge c gridIndex position d (edgeVerts, keep, vertIndex, writes) i).2.2.1 =
        vertIndex) ↔
    decide (0 < c.BoundedSDF (neighborIndexOf gridIndex i)) = decide (0 < d) := by
  by_cases h : decide (0 < c.BoundedSDF (neighborIndexOf gridIndex i)) = decide (0 < d)
  · have hinit' : edgeVerts[i]?.getD (-1) = -1 := by simpa using hinit
    simp only [processEdge]
    rw [if_pos h]
    simp [h, hinit']
  · simp only [processEdge]
    rw [if_neg h]
    simp only [h, iff_false]
    intro hcontra
    obtain ⟨_, hc⟩ := hcontra
    have hc' : vertIndex + 1 = vertIndex := hc
    omega

/-- Witness for the amended claim C5 at concrete inputs. -/
theorem processEdge_no_crossing_iff_witness :
    ([-1, -1, -1, -1, -1, -1, -1] : List Int).getD 0 (-1) = -1 ∧
    (((processEdge ⟨fun _ => 1, ⟨0, 0, 0⟩, ⟨4, 4, 4⟩, ⟨1, 1, 1⟩, 0⟩ ⟨1, 1, 1, 0⟩
          ⟨0, 0, 0⟩ 1 ([-1, -1, -1, -1, -1, -1, -1], false, 0, []) 0).1.getD 0 (-1) =
        -1 ∧
      (processEdge ⟨fun _ => 1, ⟨0, 0, 0⟩, ⟨4, 4, 4⟩, ⟨1, 1, 1⟩, 0⟩ ⟨1, 1, 1, 0⟩
          ⟨0, 0, 0⟩ 1 ([-1, -1, -1, -1, -1, -1, -1], false, 0, []) 0).2.2.1 = 0) ↔
      decide (0 < ComputeVerts.BoundedSDF ⟨fun _ => 1, ⟨0, 0, 0⟩, ⟨4, 4, 4⟩, ⟨1, 1, 1⟩, 0⟩
          (neighborIndexOf ⟨1, 1, 1, 0⟩ 0)) = decide ((0:ℚ) < 1)) :=
  ⟨by decide,
   processEdge_no_crossing_iff ⟨fun _ => 1, ⟨0, 0, 0⟩, ⟨4, 4, 4⟩, ⟨1, 1, 1⟩, 0⟩
     ⟨1, 1, 1, 0⟩ ⟨0, 0, 0⟩ 1 [-1, -1, -1, -1, -1, -1, -1] false 0 [] 0 (by decide)⟩

/-- Bookkeeping for the edge loop of one vertex-pass invocation: the
counter only grows, by at most the number of edges processed; a false keep
flag means nothing was allocated; and every write is an old one or lands
below the new counter. -/
theorem foldl_processEdge_spec (c : ComputeVerts) (gi : GridIndex) (pos : Vec3)
    (d : ℚ) :
    ∀ (L : List Nat) (ev : List Int) (kp : Bool) (vi : Nat)
      (ws : List (Nat × Vec3)),
      vi ≤ (L.foldl (processEdge c gi pos d) (ev, kp, vi, ws)).2.2.1 ∧
      (L.foldl (processEdge c gi pos d) (ev, kp, vi, ws)).2.2.1 ≤ vi + L.length ∧
      ((L.foldl (processEdge c gi pos d) (ev, kp, vi, ws)).2.1 = false →
        kp = false ∧ (L.foldl (processEdge c gi pos d) (ev, kp, vi, ws)).2.2.1 = vi) ∧
      (∀ p ∈ (L.foldl (processEdge c gi pos d) (ev, kp, vi, ws)).2.2.2,
        p ∈ ws ∨ p.1 < (L.foldl (processEdge c gi pos d) (ev, kp, vi, ws)).2.2.1) := by
  intro L
  induction L with
  | nil =>
    intro ev kp vi ws
    refine ⟨Nat.le_refl _, by simp, fun h => ⟨h, rfl⟩, fun p hp => Or.inl hp⟩
  | cons i L ih =>
    intro ev kp vi ws
    rw [List.foldl_cons]
    by_cases h : decide (0 < c.BoundedSDF (neighborIndexOf gi i)) = decide (0 < d)
    · have hF : processEdge c gi pos d (ev, kp, vi, ws) i = (ev, kp, vi, ws) := by
        simp only [processEdge]
        rw [if_pos h]
      rw [hF]
      obtain ⟨h1, h2, h3, h4⟩ := ih ev kp vi ws
      refine ⟨h1, by simp only [List.length_cons]; omega, h3, h4⟩
    · have hF : processEdge c gi pos d (ev, kp, vi, ws) i =
          (ev.set i (vi : Int), true, vi + 1,
            ws ++ [(vi, ((c.BoundedSDF (neighborIndexOf gi i)) • pos -
              d • c.Position (neighborIndexOf gi i)) /
              (c.BoundedSDF (neighborIndexOf gi i) - d))]) := by
        simp only [processEdge]
        rw [if_neg h]
      rw [hF]
      obtain ⟨h1, h2, h3, h4⟩ := ih (ev.set i (vi : Int)) true (vi + 1)
        (ws ++ [(vi, ((c.BoundedSDF (neighborIndexOf gi i)) • pos -
          d • c.Position (neighborIndexOf gi i)) /
          (c.BoundedSDF (neighborIndexOf gi i) - d))])
      refine ⟨by omega, by simp only [List.length_cons]; omega, ?_, ?_⟩
      · intro hkf
        obtain ⟨hcontra, _⟩ := h3 hkf
        exact absurd hcontra (by simp)
      · intro p hp
        rcases h4 p hp with hmem | hlt
        · rcases List.mem_append.mp hmem with hold | hnew
          · exact Or.inl hold
          · right
            have : p = (vi, _) := List.mem_singleton.mp hnew
            have hp1 : p.1 = vi := by rw [this]
            omega
        · exact Or.inr hlt

/-- A fresh-key insert into a table with an open slot succeeds and claims
the first open slot on its probe path. -/
theorem insert_fresh_succeeds (t : HashTableD) (vert : GridVert) (k : Nat)
    (hn : t.Size = 2 ^ k) (hco : Nat.Coprime t.step t.Size)
    (hfresh : ∀ q, q < t.Size → (t.slot q).key ≠ vert.key)
    (hempty : ∃ q, q < t.Size ∧ (t.slot q).key = kOpen) :
    ∃ q, q < t.Size ∧ (t.slot q).key = kOpen ∧
      t.Insert vert = some (setSlot t q vert) := by
  have hmask : vert.key &&& (t.Size - 1) = vert.key % t.Size := by
    rw [hn, Nat.and_pow_two_sub_one_eq_mod]
  have hstart : vert.key % t.Size < t.Size := Nat.mod_lt _ (size_pos hn)
  obtain ⟨qe, hqe, hqeopen⟩ := hempty
  obtain ⟨je, hje, hjeeq⟩ := probe_surjective t k hn hco (vert.key % t.Size) qe hqe
  have hstop : ∃ j, j < t.Size ∧ stopIns t vert.key (probe t (vert.key % t.Size) j) := by
    refine ⟨je, hje, ?_⟩
    rw [hjeeq]
    exact Or.inl hqeopen
  obtain ⟨j0, hj0, hj0s, hj0min, hj0eq⟩ :=
    insertLoop_finds t vert k hn t.Size (vert.key % t.Size) hstart hstop
  have hq0lt : probe t (vert.key % t.Size) j0 < t.Size := probe_lt hn _ _
  have hopen : (t.slot (probe t (vert.key % t.Size) j0)).key = kOpen := by
    rcases hj0s with h | h
    · exact h
    · exact absurd h (hfresh _ hq0lt)
  refine ⟨probe t (vert.key % t.Size) j0, hq0lt, hopen, ?_⟩
  unfold HashTableD.Insert
  rw [hmask, hj0eq, if_pos hopen]
  rfl

theorem exists_open_of_used_lt (t : HashTableD)
    (hused : t.used = t.table.countP (fun g => decide (g.key ≠ kOpen)))
    (h : t.used < t.Size) :
    ∃ q, q < t.Size ∧ (t.slot q).key = kOpen := by
  have : ¬ ∀ g ∈ t.table, (fun g => decide (g.key ≠ kOpen)) g := by
    intro hall
    have := List.countP_eq_length.mpr hall
    rw [← hused] at this
    unfold HashTableD.Size at h
    omega
  push_neg at this
  obtain ⟨g, hg, hgp⟩ := this
  have hgk : g.key = kOpen := by
    by_contra hne
    simp [hne] at hgp
  obtain ⟨i, hi, hig⟩ := List.getElem_of_mem hg
  refine ⟨i, hi, ?_⟩
  rw [slot_eq_get hi, List.get_eq_getElem, hig]
  exact hgk

/-- Unfolding of the vertex-pass body in the regular case: not Full and
the decoded index in range. -/
theorem step_main_eq (c : ComputeVerts) (st : VertexState) (code : Nat)
    (hfull : ¬ st.gridVerts.Full = true)
    (hrange : ¬((DecodeMorton code).x > c.gridSize.x ∨
      (DecodeMorton code).y > c.gridSize.y ∨ (DecodeMorton code).z > c.gridSize.z)) :
    c.step st code =
      (if ((List.range 7).foldl
            (processEdge c (DecodeMorton code) (c.Position (DecodeMorton code))
              (c.BoundedSDF (DecodeMorton code)))
            ([-1, -1, -1, -1, -1, -1, -1], false, st.vertIndex, st.vertWrites)).2.1 then
        match st.gridVerts.Insert ⟨code, some (c.BoundedSDF (DecodeMorton code)),
            ((List.range 7).foldl
              (processEdge c (DecodeMorton code) (c.Position (DecodeMorton code))
                (c.BoundedSDF (DecodeMorton code)))
              ([-1, -1, -1, -1, -1, -1, -1], false, st.vertIndex, st.vertWrites)).1⟩ with
        | some t2 => some ⟨((List.range 7).foldl
            (processEdge c (DecodeMorton code) (c.Position (DecodeMorton code))
              (c.BoundedSDF (DecodeMorton code)))
            ([-1, -1, -1, -1, -1, -1, -1], false, st.vertIndex, st.vertWrites)).2.2.1,
          ((List.range 7).foldl
            (processEdge c (DecodeMorton code) (c.Position (DecodeMorton code))
              (c.BoundedSDF (DecodeMorton code)))
            ([-1, -1, -1, -1, -1, -1, -1], false, st.vertIndex, st.vertWrites)).2.2.2, t2⟩
        | none => none
      else some ⟨((List.range 7).foldl
          (processEdge c (DecodeMorton code) (c.Position (DecodeMorton code))
            (c.BoundedSDF (DecodeMorton code)))
          ([-1, -1, -1, -1, -1, -1, -1], false, st.vertIndex, st.vertWrites)).2.2.1,
        ((List.range 7).foldl
          (processEdge c (DecodeMorton code) (c.Position (DecodeMorton code))
            (c.BoundedSDF (DecodeMorton code)))
          ([-1, -1, -1, -1, -1, -1, -1], false, st.vertIndex, st.vertWrites)).2.2.2,
        st.gridVerts⟩) := by
  simp only [ComputeVerts.step]
  rw [if_neg hfull, if_neg hrange]

/-- The vertex pass over distinct, fresh morton codes terminates and keeps
the vertex counter within 7 per occupied hash slot; writes stay below the
counter. -/
theorem runVertexPass_aux (c : ComputeVerts) (k : Nat) :
    ∀ (codes : List Nat) (st : VertexState),
      st.gridVerts.Size = 2 ^ k →
      Nat.Coprime st.gridVerts.step st.gridVerts.Size →
      WF st.gridVerts →
      st.vertIndex ≤ 7 * st.gridVerts.used →
      (∀ p ∈ st.vertWrites, p.1 < st.vertIndex) →
      codes.Nodup →
      (∀ code ∈ codes, code ≠ kOpen) →
      (∀ code ∈ codes, ∀ q, q < st.gridVerts.Size →
        (st.gridVerts.slot q).key ≠ code) →
      ∃ stF, runVertexPass c st codes = some stF ∧
        stF.gridVerts.Size = st.gridVerts.Size ∧
        WF stF.gridVerts ∧
        stF.vertIndex ≤ 7 * stF.gridVerts.used ∧
        (∀ p ∈ stF.vertWrites, p.1 < stF.vertIndex) := by
  intro codes
  induction codes with
  | nil =>
    intro st h1 _ h3 h4 h5 _ _ _
    exact ⟨st, rfl, rfl, h3, h4, h5⟩
  | cons code rest ih =>
    intro st hsz hco hwf hvi hws hnd hnk hfr
    have hndrest : rest.Nodup := hnd.of_cons
    have hnkrest : ∀ cc ∈ rest, cc ≠ kOpen :=
      fun cc hc => hnk cc (List.mem_cons_of_mem _ hc)
    by_cases hfull : st.gridVerts.Full = true
    · have hstep : c.step st code = some st := step_full_eq c st code hfull
      have hrun : runVertexPass c st (code :: rest) = runVertexPass c st rest := by
        rw [runVertexPass, hstep]
      rw [hrun]
      exact ih st hsz hco hwf hvi hws hndrest hnkrest
        (fun cc hc => hfr cc (List.mem_cons_of_mem _ hc))
    · by_cases hrange : (DecodeMorton code).x > c.gridSize.x ∨
        (DecodeMorton code).y > c.gridSize.y ∨ (DecodeMorton code).z > c.gridSize.z
      · have hstep : c.step st code = some st := by
          simp only [ComputeVerts.step]
          rw [if_neg hfull, if_pos hrange]
        have hrun : runVertexPass c st (code :: rest) = runVertexPass c st rest := by
          rw [runVertexPass, hstep]
        rw [hrun]
        exact ih st hsz hco hwf hvi hws hndrest hnkrest
          (fun cc hc => hfr cc (List.mem_cons_of_mem _ hc))
      · obtain ⟨hA, hB, hC, hD⟩ := foldl_processEdge_spec c (DecodeMorton code)
          (c.Position (DecodeMorton code)) (c.BoundedSDF (DecodeMorton code))
          (List.range 7) [-1, -1, -1, -1, -1, -1, -1] false st.vertIndex st.vertWrites
        rw [List.length_range] at hB
        by_cases hkeep : ((List.range 7).foldl
            (processEdge c (DecodeMorton code) (c.Position (DecodeMorton code))
              (c.BoundedSDF (DecodeMorton code)))
            ([-1, -1, -1, -1, -1, -1, -1], false, st.vertIndex, st.vertWrites)).2.1 = true
        · -- a record is inserted
          have hne : code ≠ kOpen := hnk code (List.mem_cons_self _ _)
          have husedlt : st.gridVerts.used < st.gridVerts.Size := by
            have hnf : ¬ st.gridVerts.used * 2 > st.gridVerts.Size := by
              simpa [HashTableD.Full] using hfull
            have hp : 0 < st.gridVerts.Size := size_pos hsz
            omega
          obtain ⟨qo, hqo, hqoopen⟩ :=
            exists_open_of_used_lt st.gridVerts hwf.used_eq husedlt
          obtain ⟨q0, hq0, hq0open, hins⟩ := insert_fresh_succeeds st.gridVerts
            ⟨code, some (c.BoundedSDF (DecodeMorton code)),
              ((List.range 7).foldl
                (processEdge c (DecodeMorton code) (c.Position (DecodeMorton code))
                  (c.BoundedSDF (DecodeMorton code)))
                ([-1, -1, -1, -1, -1, -1, -1], false, st.vertIndex, st.vertWrites)).1⟩
            k hsz hco (fun q hq => hfr code (List.mem_cons_self _ _) q hq)
            ⟨qo, hqo, hqoopen⟩
          have hstep := step_main_eq c st code hfull hrange
          rw [hkeep] at hstep
          simp only [if_true] at hstep
          rw [hins] at hstep
          set R := (List.range 7).foldl
            (processEdge c (DecodeMorton code) (c.Position (DecodeMorton code))
              (c.BoundedSDF (DecodeMorton code)))
            ([-1, -1, -1, -1, -1, -1, -1], false, st.vertIndex, st.vertWrites) with hR
          set t2 := setSlot st.gridVerts q0
            ⟨code, some (c.BoundedSDF (DecodeMorton code)), R.1⟩ with ht2
          have hrun : runVertexPass c st (code :: rest) =
              runVertexPass c ⟨R.2.2.1, R.2.2.2, t2⟩ rest := by
            rw [runVertexPass, hstep]
          rw [hrun]
          have hsz2 : t2.Size = 2 ^ k := by
            rw [ht2, setSlot_size]
            exact hsz
          have hstep2 : t2.step = st.gridVerts.step := rfl
          have hco2 : Nat.Coprime t2.step t2.Size := by
            rw [hstep2, hsz2, ← hsz]
            exact hco
          have hwf2 : WF t2 := wf_insert hsz hwf hne hins
          have hused2 : t2.used = st.gridVerts.used + 1 := rfl
          have hvi2 : R.2.2.1 ≤ 7 * t2.used := by
            rw [hused2]
            omega
          have hws2 : ∀ p ∈ R.2.2.2, p.1 < R.2.2.1 := by
            intro p hp
            rcases hD p hp with hold | hlt
            · have := hws p hold
              omega
            · exact hlt
          have hfr2 : ∀ cc ∈ rest, ∀ q, q < t2.Size → (t2.slot q).key ≠ cc := by
            intro cc hcc q hq
            rw [hsz2, ← hsz] at hq
            by_cases hq0q : q = q0
            · subst hq0q
              rw [ht2, slot_setSlot_self hq]
              intro hcontra
              have : code = cc := hcontra
              have hcodenin : code ∉ rest := (List.nodup_cons.mp hnd).1
              rw [this] at hcodenin
              exact hcodenin hcc
            · rw [ht2, slot_setSlot_ne (fun h => hq0q h.symm)]
              exact hfr cc (List.mem_cons_of_mem _ hcc) q hq
          obtain ⟨stF, hrunF, hszF, hwfF, hviF, hwsF⟩ :=
            ih ⟨R.2.2.1, R.2.2.2, t2⟩ hsz2 hco2 hwf2 hvi2 hws2 hndrest hnkrest hfr2
          refine ⟨stF, hrunF, ?_, hwfF, hviF, hwsF⟩
          calc stF.gridVerts.Size = t2.Size := hszF
            _ = st.gridVerts.Size := by rw [hsz2, ← hsz]
        · -- nothing kept: table untouched
          have hkeep' : ((List.range 7).foldl
              (processEdge c (DecodeMorton code) (c.Position (DecodeMorton code))
                (c.BoundedSDF (DecodeMorton code)))
              ([-1, -1, -1, -1, -1, -1, -1], false, st.vertIndex, st.vertWrites)).2.1 =
              false := by
            rcases Bool.eq_false_or_eq_true _ with h | h
            · exact absurd h hkeep
            · exact h
          have hstep := step_main_eq c st code hfull hrange
          rw [hkeep'] at hstep
          simp only [Bool.false_eq_true, if_false] at hstep
          obtain ⟨_, hvieq⟩ := hC hkeep'
          set R := (List.range 7).foldl
            (processEdge c (DecodeMorton code) (c.Position (DecodeMorton code))
              (c.BoundedSDF (DecodeMorton code)))
            ([-1, -1, -1, -1, -1, -1, -1], false, st.vertIndex, st.vertWrites) with hR
          have hrun : runVertexPass c st (code :: rest) =
              runVertexPass c ⟨R.2.2.1, R.2.2.2, st.gridVerts⟩ rest := by
            rw [runVertexPass, hstep]
          rw [hrun]
          have hvi2 : R.2.2.1 ≤ 7 * st.gridVerts.used := by
            rw [hvieq]
            exact hvi
          have hws2 : ∀ p ∈ R.2.2.2, p.1 < R.2.2.1 := by
            intro p hp
            rcases hD p hp with hold | hlt
            · have := hws p hold
              omega
            · exact hlt
          exact ih ⟨R.2.2.1, R.2.2.2, st.gridVerts⟩ hsz hco hwf hvi2 hws2
            hndrest hnkrest (fun cc hc => hfr cc (List.mem_cons_of_mem _ hc))

/-- Claim C8: a sequential vertex pass over the distinct morton codes
0..N-1, starting from a fresh power-of-two table and counter 0, terminates
with the vertex counter at most 7 times the capacity; hence every write
into the vertex-position buffer lands below 7 times the capacity, inside
the preallocated buffer. -/
theorem vertex_pass_counter_bound (c : ComputeVerts) (k step0 N : Nat)
    (hco : Nat.Coprime step0 (2 ^ k)) (hN : N ≤ kOpen) :
    ∃ stF, runVertexPass c ⟨0, [], ⟨step0, List.replicate (2 ^ k) {}, 0⟩⟩
        (List.range N) = some stF ∧
      stF.vertIndex ≤ 7 * 2 ^ k ∧
      ∀ p ∈ stF.vertWrites, p.1 < 7 * 2 ^ k := by
  have hsz : (⟨step0, List.replicate (2 ^ k) {}, 0⟩ : HashTableD).Size = 2 ^ k := by
    simp [HashTableD.Size]
  have hco' : Nat.Coprime (⟨step0, List.replicate (2 ^ k) {}, 0⟩ : HashTableD).step
      (⟨step0, List.replicate (2 ^ k) {}, 0⟩ : HashTableD).Size := by
    rw [hsz]
    exact hco
  have hnk : ∀ code ∈ List.range N, code ≠ kOpen := by
    intro code hc
    have := List.mem_range.mp hc
    omega
  have hfr : ∀ code ∈ List.range N, ∀ q,
      q < (⟨step0, List.replicate (2 ^ k) {}, 0⟩ : HashTableD).Size →
      ((⟨step0, List.replicate (2 ^ k) {}, 0⟩ : HashTableD).slot q).key ≠ code := by
    intro code hc q hq
    rw [slot_replicate hq]
    exact fun h => (hnk code hc) h.symm
  obtain ⟨stF, hrun, hszF, hwfF, hviF, hwsF⟩ := runVertexPass_aux c k (List.range N)
    ⟨0, [], ⟨step0, List.replicate (2 ^ k) {}, 0⟩⟩ hsz hco' (wf_empty step0 (2 ^ k))
    (by simp) (by simp) (List.nodup_range N) hnk hfr
  have hub : stF.gridVerts.used ≤ stF.gridVerts.Size := by
    rw [hwfF.used_eq]
    exact List.countP_le_length _
  have hszF' : stF.gridVerts.Size = 2 ^ k := by
    rw [hszF]
    exact hsz
  refine ⟨stF, hrun, by omega, ?_⟩
  intro p hp
  have := hwsF p hp
  omega

/-- Witness for claim C8 at a concrete instantiation. -/
theorem vertex_pass_counter_bound_witness :
    Nat.Coprime 1 (2 ^ 1) ∧ 3 ≤ kOpen ∧
    ∃ stF, runVertexPass ⟨fun _ => 1, ⟨0, 0, 0⟩, ⟨4, 4, 4⟩, ⟨1, 1, 1⟩, 0⟩
        ⟨0, [], ⟨1, List.replicate (2 ^ 1) {}, 0⟩⟩ (List.range 3) = some stF ∧
      stF.vertIndex ≤ 7 * 2 ^ 1 ∧
      ∀ p ∈ stF.vertWrites, p.1 < 7 * 2 ^ 1 :=
  ⟨by decide, by decide,
   vertex_pass_counter_bound ⟨fun _ => 1, ⟨0, 0, 0⟩, ⟨4, 4, 4⟩, ⟨1, 1, 1⟩, 0⟩ 1 1 3
     (by decide) (by decide)⟩

theorem truncQ_eq_floor {q : ℚ} (h : 0 ≤ q) : truncQ q = ⌊q⌋ := by
  unfold truncQ
  rw [Int.tdiv_eq_ediv (by exact_mod_cast Rat.num_nonneg.mpr h)
    (by positivity), Rat.floor_def]

/-- Claim C6, amended: for a box with min at most max componentwise and a
positive edge length, the driver computes gridSize as the floor (not the
ceiling) of boxDim / edgeLength in each axis. -/
theorem levelSet_gridSize_floor (bounds : Box) (edgeLength : ℚ)
    (hx : bounds.min.x ≤ bounds.max.x) (hy : bounds.min.y ≤ bounds.max.y)
    (hz : bounds.min.z ≤ bounds.max.z) (he : 0 < edgeLength) :
    LevelSet_gridSize bounds edgeLength =
      ⟨⌊(bounds.max.x - bounds.min.x) / edgeLength⌋,
       ⌊(bounds.max.y - bounds.min.y) / edgeLength⌋,
       ⌊(bounds.max.z - bounds.min.z) / edgeLength⌋⟩ := by
  unfold LevelSet_gridSize ivec3OfVec3 Box.Size
  simp only [Vec3.sub_e, Vec3.div_e]
  congr 1 <;>
  · apply truncQ_eq_floor
    apply div_nonneg _ (le_of_lt he)
    linarith

/-- Witness for the amended claim C6. -/
theorem levelSet_gridSize_floor_witness :
    ((0:ℚ) ≤ 3 ∧ (0:ℚ) < 2) ∧
    LevelSet_gridSize ⟨⟨0, 0, 0⟩, ⟨3, 3, 3⟩⟩ 2 =
      ⟨⌊((3:ℚ) - 0) / 2⌋, ⌊((3:ℚ) - 0) / 2⌋, ⌊((3:ℚ) - 0) / 2⌋⟩ :=
  ⟨⟨by norm_num, by norm_num⟩,
   levelSet_gridSize_floor ⟨⟨0, 0, 0⟩, ⟨3, 3, 3⟩⟩ 2 (by norm_num) (by norm_num)
     (by norm_num) (by norm_num)⟩

/-- Claim C6, counterexample: for a box of side 3 and edge length 2, the
driver truncates 1.5 down to 1, while the claimed ceiling is 2. -/
theorem levelSet_gridSize_ceil_counterexample :
    (LevelSet_gridSize ⟨⟨0, 0, 0⟩, ⟨3, 3, 3⟩⟩ 2).x = 1 ∧
    ⌈((⟨⟨0, 0, 0⟩, ⟨3, 3, 3⟩⟩ : Box).Size.x / (2:ℚ))⌉ = 2 ∧
    (1 : Int) ≠ 2 := by
  refine ⟨?_, ?_, by decide⟩
  · show truncQ (((3:ℚ) - 0) / 2) = 1
    rw [truncQ_eq_floor (by norm_num), Int.floor_eq_iff]
    norm_num
  · show ⌈((3:ℚ) - 0) / 2⌉ = 2
    rw [Int.ceil_eq_iff]
    norm_num

/-- Claim C10: CreateTris emits 0 triangles for masks 0 and 15, 2 for the
six two-bit masks, and 1 otherwise; TetTri1 is sentinel whenever TetTri0
is, and TetTri1 is non-sentinel exactly on the six two-bit masks. -/
theorem createTris_count (m : Nat) (hm : m < 16) (edges : List Int) (n : Nat)
    (ws : List (Nat × IVec3)) :
    ((CreateTris (tetOfMask m) edges (n, ws)).2.length =
      ws.length + (if m = 0 ∨ m = 15 then 0
        else if (m.testBit 0).toNat + (m.testBit 1).toNat + (m.testBit 2).toNat +
            (m.testBit 3).toNat = 2 then 2 else 1)) ∧
    (TetTri0 m = ⟨-1, -1, -1⟩ → TetTri1 m = ⟨-1, -1, -1⟩) ∧
    (TetTri1 m ≠ ⟨-1, -1, -1⟩ ↔ (m.testBit 0).toNat + (m.testBit 1).toNat +
      (m.testBit 2).toNat + (m.testBit 3).toNat = 2) := by
  interval_cases m <;>
    simp [CreateTris, CreateTri, tetOfMask, TetTri0, TetTri1, Nat.testBit_to_div_mod]

/-- Witness for claim C10 at mask 5. -/
theorem createTris_count_witness :
    (5 < 16 ∧
      ((CreateTris (tetOfMask 5) [10, 11, 12, 13, 14, 15] (0, [])).2.length =
        ([] : List (Nat × IVec3)).length + (if (5:Nat) = 0 ∨ (5:Nat) = 15 then 0
          else if ((5:Nat).testBit 0).toNat + ((5:Nat).testBit 1).toNat +
              ((5:Nat).testBit 2).toNat + ((5:Nat).testBit 3).toNat = 2
            then 2 else 1))) ∧
    (TetTri0 5 = ⟨-1, -1, -1⟩ → TetTri1 5 = ⟨-1, -1, -1⟩) :=
  ⟨⟨by decide, (createTris_count 5 (by decide) [10, 11, 12, 13, 14, 15] 0 []).1⟩,
   (createTris_count 5 (by decide) [10, 11, 12, 13, 14, 15] 0 []).2.1⟩

theorem decodeMorton_nonneg (code : Nat) :
    0 ≤ (DecodeMorton code).x ∧ 0 ≤ (DecodeMorton code).y ∧
    0 ≤ (DecodeMorton code).z ∧ 0 ≤ (DecodeMorton code).w := by
  unfold DecodeMorton
  refine ⟨?_, ?_, ?_, ?_⟩ <;> exact Int.natCast_nonneg _

/-- One axis iteration only consults the lookup at indices with
non-negative x, y, z: the guarded decrement position is checked, all other
components come from the (componentwise non-negative) base and lead
indices. -/
theorem trisIter_congr (f g : GridIndex → GridVert)
    (hfg : ∀ gi, 0 ≤ gi.x → 0 ≤ gi.y → 0 ≤ gi.z → f gi = g gi)
    (base : GridVert) (baseIndex leadIndex : GridIndex)
    (hbx : 0 ≤ baseIndex.x) (hby : 0 ≤ baseIndex.y) (hbz : 0 ≤ baseIndex.z)
    (hlx : 0 ≤ leadIndex.x) (hly : 0 ≤ leadIndex.y) (hlz : 0 ≤ leadIndex.z)
    (i : Nat) (hi : i < 3)
    (s : GridIndex × GridVert × (Nat × List (Nat × IVec3))) :
    trisIter f base baseIndex leadIndex s i =
      trisIter g base baseIndex leadIndex s i := by
  obtain ⟨tet, thisVert, acc⟩ := s
  have hB : f (baseIndex.setNth (Next3 i) (baseIndex.nth (Next3 i) + 1)) =
      g (baseIndex.setNth (Next3 i) (baseIndex.nth (Next3 i) + 1)) := by
    apply hfg <;>
      (interval_cases i <;> simp [GridIndex.setNth, GridIndex.nth, Next3, Prev3] <;>
        omega)
  by_cases hguard : (leadIndex.setNth (Prev3 i)
      (leadIndex.nth (Prev3 i) - 1)).nth (Prev3 i) < 0
  · simp only [trisIter, if_pos hguard, hB]
  · have hA : f (leadIndex.setNth (Prev3 i) (leadIndex.nth (Prev3 i) - 1)) =
        g (leadIndex.setNth (Prev3 i) (leadIndex.nth (Prev3 i) - 1)) := by
      apply hfg <;>
        (interval_cases i <;>
          simp [GridIndex.setNth, GridIndex.nth, Next3, Prev3] at hguard ⊢ <;>
          omega)
    simp only [trisIter, if_neg hguard, hA, hB]

/-- Claim C9: the triangle-pass body is insensitive to what the lookup
returns at any index with a negative component: when the decrement of
coordinate Prev3 i of leadIndex goes negative the code substitutes a
default GridVert instead of looking up, and every index it does look up
has non-negative x, y, z, so MortonCode is never invoked on a negative
coordinate. -/
theorem buildTris_body_lookup_nonneg (f g : GridIndex → GridVert)
    (hfg : ∀ gi, 0 ≤ gi.x → 0 ≤ gi.y → 0 ≤ gi.z → f gi = g gi)
    (base : GridVert) (acc : Nat × List (Nat × IVec3)) :
    BuildTris.body f base acc = BuildTris.body g base acc := by
  by_cases hopen : base.key = kOpen
  · simp only [BuildTris.body, if_pos hopen]
  · simp only [BuildTris.body, if_neg hopen]
    obtain ⟨hbx, hby, hbz, hbw⟩ := decodeMorton_nonneg base.key
    set baseIndex := DecodeMorton base.key with hbI
    set leadIndex := (if baseIndex.w = 0 then { baseIndex with w := 1 }
      else ⟨baseIndex.x + 1, baseIndex.y + 1, baseIndex.z + 1, 0⟩ : GridIndex)
      with hlI
    have hlx : 0 ≤ leadIndex.x := by
      rw [hlI]
      by_cases h : baseIndex.w = 0 <;> simp [h] <;> omega
    have hly : 0 ≤ leadIndex.y := by
      rw [hlI]
      by_cases h : baseIndex.w = 0 <;> simp [h] <;> omega
    have hlz : 0 ≤ leadIndex.z := by
      rw [hlI]
      by_cases h : baseIndex.w = 0 <;> simp [h] <;> omega
    have h0 : f { baseIndex with x := baseIndex.x + 1 } =
        g { baseIndex with x := baseIndex.x + 1 } := by
      apply hfg <;> simp <;> omega
    rw [h0]
    have hcongr : ∀ i, i < 3 → ∀ s,
        trisIter f base baseIndex leadIndex s i =
          trisIter g base baseIndex leadIndex s i :=
      fun i hi s => trisIter_congr f g hfg base baseIndex leadIndex
        hbx hby hbz hlx hly hlz i hi s
    simp only [List.foldl_cons, List.foldl_nil]
    rw [hcongr 0 (by omega), hcongr 1 (by omega), hcongr 2 (by omega)]

/-- Witness for claim C9: two lookups agreeing on non-negative indices,
applied to a base record whose decoded index is the origin, so the
decrement guard actually fires. -/
theorem buildTris_body_lookup_nonneg_witness :
    BuildTris.body (fun _ => {}) ({ key := 0 } : GridVert) (0, []) =
      BuildTris.body
        (fun gi => if 0 ≤ gi.x ∧ 0 ≤ gi.y ∧ 0 ≤ gi.z then {} else { key := 42 })
        ({ key := 0 } : GridVert) (0, []) :=
  buildTris_body_lookup_nonneg (fun _ => {})
    (fun gi => if 0 ≤ gi.x ∧ 0 ≤ gi.y ∧ 0 ≤ gi.z then {} else { key := 42 })
    (fun gi hx hy hz => by simp [hx, hy, hz]) ({ key := 0 } : GridVert) (0, [])

/-- Claim C5, counterexample: at grid vertex (5,5,5,0) the owned +x edge
(edge 1) has endpoint values -1 (base) and 0 (neighbor). The claim's sign
rule (zero positive) says the signs differ and a crossing must be
recorded; the vertex pass records nothing: the edge body leaves edgeVerts,
the keep flag, the vertex counter and the write list unchanged. -/
theorem vertex_pass_zero_counterexample :
    ctxC5.BoundedSDF ⟨5, 5, 5, 0⟩ = -1 ∧
    ctxC5.BoundedSDF (neighborIndexOf ⟨5, 5, 5, 0⟩ 1) = 0 ∧
    claimSign (ctxC5.BoundedSDF (neighborIndexOf ⟨5, 5, 5, 0⟩ 1)) ≠
      claimSign (ctxC5.BoundedSDF ⟨5, 5, 5, 0⟩) ∧
    processEdge ctxC5 ⟨5, 5, 5, 0⟩ (ctxC5.Position ⟨5, 5, 5, 0⟩)
        (ctxC5.BoundedSDF ⟨5, 5, 5, 0⟩)
        ([-1, -1, -1, -1, -1, -1, -1], false, 0, []) 1 =
      ([-1, -1, -1, -1, -1, -1, -1], false, 0, []) := by
  have hbase : ctxC5.BoundedSDF ⟨5, 5, 5, 0⟩ = -1 := by
    norm_num [ComputeVerts.BoundedSDF, ComputeVerts.Position, ctxC5,
      GridIndex.toVec3, Vec3.addScalar]
  have hnb : ctxC5.BoundedSDF (neighborIndexOf ⟨5, 5, 5, 0⟩ 1) = 0 := by
    norm_num [ComputeVerts.BoundedSDF, ComputeVerts.Position, ctxC5,
      GridIndex.toVec3, Vec3.addScalar, neighborIndexOf, Neighbors]
  refine ⟨hbase, hnb, ?_, ?_⟩
  · rw [hbase, hnb]
    norm_num [claimSign]
  · simp only [processEdge]
    rw [hbase, hnb]
    norm_num

/-- Witness for the amended claim C4 at a concrete Full state. -/
theorem step_full_drops_witness :
    (⟨0, [], fullTable⟩ : VertexState).gridVerts.Full = true ∧
    ComputeVerts.step
        ⟨fun _ => 1, ⟨0, 0, 0⟩, ⟨4, 4, 4⟩, ⟨1, 1, 1⟩, 0⟩
        ⟨0, [], fullTable⟩ 9 = some ⟨0, [], fullTable⟩ :=
  ⟨by decide,
   step_full_drops ⟨fun _ => 1, ⟨0, 0, 0⟩, ⟨4, 4, 4⟩, ⟨1, 1, 1⟩, 0⟩
     ⟨0, [], fullTable⟩ 9 (by decide)⟩

/-- Witness for claim C7 on a concrete four-slot table holding key 6. -/
theorem lookup_correct_witness :
    HashTableD.get ⟨127, [{}, {}, ⟨6, some 1, [-1, -1, -1, -1, -1, -1, -1]⟩, {}], 1⟩
        6 ≠ none ∧
    (∀ g ∈ (⟨127, [{}, {}, ⟨6, some 1, [-1, -1, -1, -1, -1, -1, -1]⟩, {}],
        1⟩ : HashTableD).table, g.key = 6 →
      HashTableD.get ⟨127, [{}, {}, ⟨6, some 1, [-1, -1, -1, -1, -1, -1, -1]⟩, {}], 1⟩
        6 = some g) ∧
    ((∀ g ∈ (⟨127, [{}, {}, ⟨6, some 1, [-1, -1, -1, -1, -1, -1, -1]⟩, {}],
        1⟩ : HashTableD).table, g.key ≠ 6) →
      HashTableD.get ⟨127, [{}, {}, ⟨6, some 1, [-1, -1, -1, -1, -1, -1, -1]⟩, {}], 1⟩
        6 = some {}) :=
  lookup_correct ⟨127, [{}, {}, ⟨6, some 1, [-1, -1, -1, -1, -1, -1, -1]⟩, {}], 1⟩ 2
    (by decide) (by decide)
    (Built.insert (t := ⟨127, List.replicate 4 {}, 0⟩)
      (⟨6, some 1, [-1, -1, -1, -1, -1, -1, -1]⟩ : GridVert) (by decide)
      (Built.empty 127 4) (by decide))
    (by decide) 6

end Manifold
